import Mathlib

/-!
Verification of the skills-tree core: graph model building, relative layout
resolution, transitive drag propagation, obstacle-avoiding connector routing,
and the visibility/dimming overlay.

Coordinates are modelled as exact rationals; the router's square root is
modelled over the reals.  Recursive procedures whose termination is itself in
question (the layout resolver and the transitive-dependents walk) are embedded
with an explicit fuel parameter: a `none` result means the recursion ran out
of fuel, and divergence of the original program corresponds to `none` for
every fuel value.
-/

namespace SkillsTree

/-- A 2-D point `{x, y}` with exact rational coordinates. -/
structure Point where
  x : ℚ
  y : ℚ
deriving DecidableEq, Repr

/-- `Exercise` from `types.ts`: the fields read by the core algorithms. -/
structure Exercise where
  slug : String
  status : String
  name : String
  description : String
  pathSlug : Option String
  dependencies : Option (List String)
  position : Option Point
  products : Option (List String)
  difficulty : Option String
deriving DecidableEq, Repr

/-- `Path` from `types.ts`. -/
structure Path where
  slug : String
  name : String
  description : String
  color : String
deriving DecidableEq, Repr

/-- `SkillTreeNode` from `types.ts`. -/
structure SkillTreeNode where
  exercise : Exercise
  path : Path
  position : Point
  dependencies : List String
  dependents : List String
deriving DecidableEq, Repr

/-- `FilterState` from `FilterBar.tsx`. -/
structure FilterState where
  paths : List String
  products : List String
  difficulties : List String
  statuses : List String
deriving DecidableEq, Repr

/-! ## Visibility / dimming overlay (`filter-utils.ts`) -/

/-- JS `String.prototype.includes`: substring test. -/
def jsIncludes (s sub : String) : Bool :=
  s.data.tails.any fun t => sub.data.isPrefixOf t

/-- JS truthiness of an optional string: `undefined` and `""` are falsy. -/
def strTruthy : Option String → Bool
  | none => false
  | some s => s ≠ ""

/-- The guard `searchTerm && searchTerm.trim()` of `calculateExerciseVisibility`. -/
def searchActive : Option String → Bool
  | none => false
  | some s => s.trim ≠ ""

/-- `matchesSearchTerm` from `filter-utils.ts`: case-insensitive containment of
the search term in any exercise/path field; absent fields never match. -/
def matchesSearchTerm (exercise : Exercise) (path : Path) (searchTerm : String) : Bool :=
  if searchTerm.trim = "" then true
  else
    let term := searchTerm.toLower
    let fieldsToSearch : List (Option String) :=
      [some exercise.name, some exercise.description, some exercise.status,
       exercise.difficulty, some exercise.slug, some path.name, some path.description]
      ++ (exercise.products.getD []).map some
      ++ (exercise.dependencies.getD []).map some
    fieldsToSearch.any fun field =>
      match field with
      | some f => f ≠ "" && jsIncludes f.toLower term
      | none => false

/-- The tail of `calculateExerciseVisibility` (from the `matchingFilters`
computation to the returned interpolation), as one helper over the built
`activeFilters` match list. -/
def visFromMatches (activeFilters : List Bool) : ℚ :=
  let matchingFilters := (activeFilters.filter id).length
  let totalActiveFilterCount := activeFilters.length
  if totalActiveFilterCount = 0 then 1
  else
    let baseVisibility : ℚ := 0.25
    let visibilityRange : ℚ := 1 - baseVisibility
    let matchPercentage : ℚ := (matchingFilters : ℚ) / (totalActiveFilterCount : ℚ)
    baseVisibility + visibilityRange * matchPercentage

/-- `calculateExerciseVisibility` from `filter-utils.ts`. -/
def calculateExerciseVisibility (exercise : Exercise) (path : Path)
    (filters : FilterState) (searchTerm : Option String) : ℚ :=
  if searchActive searchTerm then
    if matchesSearchTerm exercise path (searchTerm.getD "") then 1 else 0.15
  else if filters.statuses.length > 0 &&
      !(filters.statuses.any fun status => status.toLower = exercise.status.toLower) then
    0.25
  else
    let totalActiveFilters :=
      filters.paths.length + filters.products.length + filters.difficulties.length
    if totalActiveFilters = 0 then 1
    else
      let activeFilters : List Bool :=
        (if filters.paths.length > 0 then
          [if strTruthy exercise.pathSlug then
             filters.paths.contains (exercise.pathSlug.getD "") else false]
         else [])
        ++ (if filters.products.length > 0 then
          [match exercise.products with
           | some prods => prods.any fun product => filters.products.contains product
           | none => false]
         else [])
        ++ (if filters.difficulties.length > 0 then
          [if strTruthy exercise.difficulty then
             filters.difficulties.contains (exercise.difficulty.getD "") else false]
         else [])
      visFromMatches activeFilters

/-- The interpolated visibility always lies in `[0.25, 1]`. -/
theorem visFromMatches_bounds (l : List Bool) :
    0.25 ≤ visFromMatches l ∧ visFromMatches l ≤ 1 := by
  unfold visFromMatches
  by_cases h : l.length = 0
  · simp only [h, if_true]
    norm_num
  · have hl : 0 < l.length := Nat.pos_of_ne_zero h
    have hmt : (l.filter id).length ≤ l.length := List.length_filter_le _ _
    have htQ : (0 : ℚ) < (l.length : ℚ) := by exact_mod_cast hl
    have h0 : (0 : ℚ) ≤ ((l.filter id).length : ℚ) / (l.length : ℚ) := by positivity
    have h1 : ((l.filter id).length : ℚ) / (l.length : ℚ) ≤ 1 := by
      rw [div_le_one htQ]; exact_mod_cast hmt
    simp only [h, if_false]
    constructor <;> nlinarith

/-- C10: the visibility value is at least `0.15`, at most `1`, never `0`, and
outside search mode never below `0.25`. -/
theorem calculateExerciseVisibility_bounds (exercise : Exercise) (path : Path)
    (filters : FilterState) (searchTerm : Option String) :
    0.15 ≤ calculateExerciseVisibility exercise path filters searchTerm ∧
    calculateExerciseVisibility exercise path filters searchTerm ≤ 1 ∧
    calculateExerciseVisibility exercise path filters searchTerm ≠ 0 ∧
    (searchActive searchTerm = false →
      0.25 ≤ calculateExerciseVisibility exercise path filters searchTerm) := by
  suffices h : 0.15 ≤ calculateExerciseVisibility exercise path filters searchTerm ∧
      calculateExerciseVisibility exercise path filters searchTerm ≤ 1 ∧
      (searchActive searchTerm = false →
        0.25 ≤ calculateExerciseVisibility exercise path filters searchTerm) by
    exact ⟨h.1, h.2.1,
      (lt_of_lt_of_le (show (0 : ℚ) < 0.15 by norm_num) h.1).ne', h.2.2⟩
  unfold calculateExerciseVisibility
  by_cases h1 : searchActive searchTerm = true
  · by_cases h2 : matchesSearchTerm exercise path (searchTerm.getD "") = true
    · simp only [h1, h2, if_true]
      refine ⟨by norm_num, by norm_num, fun hf => ?_⟩
      exact Bool.noConfusion hf
    · simp only [h1, if_true, h2, if_false]
      refine ⟨by norm_num, by norm_num, fun hf => ?_⟩
      exact Bool.noConfusion hf
  · replace h1 : searchActive searchTerm = false := by
      revert h1; cases searchActive searchTerm <;> simp
    simp only [h1, Bool.false_eq_true, if_false]
    by_cases h3 : (filters.statuses.length > 0 &&
        !(filters.statuses.any fun status =>
          status.toLower = exercise.status.toLower)) = true
    · simp only [h3, if_true]
      exact ⟨by norm_num, by norm_num, fun _ => le_refl _⟩
    · replace h3 : (filters.statuses.length > 0 &&
          !(filters.statuses.any fun status =>
            status.toLower = exercise.status.toLower)) = false := by
        revert h3
        cases filters.statuses.length > 0 &&
          !(filters.statuses.any fun status =>
            status.toLower = exercise.status.toLower) <;> simp
      simp only [h3, Bool.false_eq_true, if_false]
      by_cases h4 : filters.paths.length + filters.products.length +
          filters.difficulties.length = 0
      · simp only [h4, if_true]
        exact ⟨by norm_num, by norm_num, fun _ => by norm_num⟩
      · simp only [h4, if_false]
        refine ⟨le_trans (by norm_num) (visFromMatches_bounds _).1,
          (visFromMatches_bounds _).2, fun _ => (visFromMatches_bounds _).1⟩

/-- Witness for C10 at a concrete input with no active search. -/
theorem calculateExerciseVisibility_bounds_witness :
    searchActive none = false ∧
    0.25 ≤ calculateExerciseVisibility
      ⟨"ex", "active", "Ex", "d", none, none, none, none, none⟩
      ⟨"p", "P", "d", "#fff"⟩ ⟨[], [], [], []⟩ none :=
  ⟨rfl, (calculateExerciseVisibility_bounds
      ⟨"ex", "active", "Ex", "d", none, none, none, none, none⟩
      ⟨"p", "P", "d", "#fff"⟩ ⟨[], [], [], []⟩ none).2.2.2 rfl⟩

/-! ## Graph model builder and relative layout resolver (`skill-tree-data.ts`)

The resolver's recursion carries no structural termination measure (its
`positionedNodes` set is only extended after a node's dependencies have been
processed), so `calculatePosition` is embedded with explicit fuel: `none`
means the fuel was exhausted while the original recursion would still be
running. -/

/-- JS `Map.get` on a map built from an entry list: the last entry for a
duplicated key wins. -/
def mapGet (paths : List Path) (slug : String) : Option Path :=
  paths.reverse.find? fun p => p.slug = slug

/-- The synthesized fallback path used when no paths exist at all. -/
def fallbackPath : Path :=
  { slug := "fundamentals", name := "Fundamentals", description := "Basic skills",
    color := "#0969da" }

/-- First pass of `createSkillTreeData`: one node per exercise with resolved
path, placeholder position and empty dependents.  `exercise.pathSlug || ...`
treats an absent or empty path slug as falsy. -/
def initialNode (paths : List Path) (exercise : Exercise) : SkillTreeNode :=
  let pathSlug := match exercise.pathSlug with
    | none => "fundamentals"
    | some s => if s = "" then "fundamentals" else s
  let dependencies := exercise.dependencies.getD []
  let path := (mapGet paths pathSlug).getD (paths.head?.getD fallbackPath)
  { exercise := exercise, path := path, position := ⟨0, 0⟩,
    dependencies := dependencies, dependents := [] }

/-- JS `nodes.find(n => n.exercise.slug === depSlug)` followed by a push onto
its `dependents`: append `slug` to the dependents of the first node whose
exercise slug is `depSlug`, if any. -/
def addDependent : List SkillTreeNode → String → String → List SkillTreeNode
  | [], _, _ => []
  | n :: rest, depSlug, slug =>
    if n.exercise.slug = depSlug then
      { n with dependents := n.dependents ++ [slug] } :: rest
    else n :: addDependent rest depSlug slug

/-- Second pass of `createSkillTreeData`: for every node, for every slug in
its `dependencies`, append the node's slug to that dependency's `dependents`
(unresolvable dependency slugs are silently skipped by `addDependent`). -/
def computeDependents (nodes : List SkillTreeNode) : List SkillTreeNode :=
  (nodes.map fun n => (n.exercise.slug, n.dependencies)).foldl
    (fun acc sd => sd.2.foldl (fun acc2 depSlug => addDependent acc2 depSlug sd.1) acc)
    nodes

/-- State of the layout pass: the node array (whose positions the JS code
mutates in place) plus the `positionedNodes` set. -/
structure LayoutState where
  nodes : List SkillTreeNode
  positioned : List String
deriving DecidableEq, Repr

/-- JS `nodeMap.get`: the node map is built from the node array and keeps,
for each slug, the last node carrying it; since the layout pass mutates node
objects shared between the map and the array, the lookup is modelled as the
index of that node. -/
def lastIdx? : List SkillTreeNode → String → Option Nat
  | [], _ => none
  | n :: rest, slug =>
    match lastIdx? rest slug with
    | some j => some (j + 1)
    | none => if n.exercise.slug = slug then some 0 else none

/-- JS `nodeMap.get(depSlug)` as a node read: the (last) node carrying the
slug, or `undefined`. -/
def nodeMapGet (nodes : List SkillTreeNode) (slug : String) : Option SkillTreeNode :=
  match lastIdx? nodes slug with
  | some j => nodes[j]?
  | none => none

/-- The anchor-selection loop of `calculatePosition`: scan the dependencies,
keeping the position with the strictly largest `x + y`, starting from the
literal `{x: 0, y: 0}` initializer. -/
def anchorPos (nodes : List SkillTreeNode) (deps : List String) : Point :=
  deps.foldl
    (fun best depSlug =>
      match nodeMapGet nodes depSlug with
      | some depNode =>
        if depNode.position.x + depNode.position.y > best.x + best.y then
          depNode.position
        else best
      | none => best)
    ⟨0, 0⟩

/-- The "ensure all dependencies are positioned first" loop of
`calculatePosition`, parameterized by the recursive call (the resolver at one
less fuel), so that the whole resolver is structurally recursive on fuel. -/
def positionDepsAux (recur : LayoutState → Nat → Option LayoutState) :
    LayoutState → List String → Option LayoutState
  | st, [] => some st
  | st, depSlug :: rest =>
    match lastIdx? st.nodes depSlug with
    | some j =>
      if depSlug ∈ st.positioned then positionDepsAux recur st rest
      else
        match recur st j with
        | none => none
        | some st' => positionDepsAux recur st' rest
    | none => positionDepsAux recur st rest

/-- `calculatePosition` from `skill-tree-data.ts`, fuel-indexed.  The node is
identified by its index `i` in the array (JS object identity). -/
def calculatePosition : Nat → LayoutState → Nat → Option LayoutState
  | 0 => fun _ _ => none
  | fuel + 1 => fun st i =>
    match st.nodes[i]? with
    | none => some st
    | some node =>
      if node.exercise.slug ∈ st.positioned then some st
      else if node.dependencies = [] then
        some { nodes := st.nodes.set i
                 { node with position := node.exercise.position.getD ⟨0, 0⟩ },
               positioned := st.positioned.insert node.exercise.slug }
      else
        match positionDepsAux (calculatePosition fuel) st node.dependencies with
        | none => none
        | some st' =>
          let lastDepPosition := anchorPos st'.nodes node.dependencies
          let relativePosition := node.exercise.position.getD ⟨0, 50⟩
          some { nodes := st'.nodes.set i
                   { node with position := ⟨lastDepPosition.x + relativePosition.x,
                                            lastDepPosition.y + relativePosition.y⟩ },
                 positioned := st'.positioned.insert node.exercise.slug }

/-- The dependency loop of `calculatePosition` at a given fuel. -/
def positionDeps (fuel : Nat) : LayoutState → List String → Option LayoutState :=
  positionDepsAux (calculatePosition fuel)

/-- The final `nodes.forEach(calculatePosition)` pass, over a list of node
indices. -/
def calcAll (fuel : Nat) : LayoutState → List Nat → Option LayoutState
  | st, [] => some st
  | st, i :: rest =>
    match calculatePosition fuel st i with
    | none => none
    | some st' => calcAll fuel st' rest

/-- The position-calculation pass of `createSkillTreeData` over every node in
input order. -/
def resolveLayout (fuel : Nat) (nodes : List SkillTreeNode) :
    Option (List SkillTreeNode) :=
  (calcAll fuel { nodes := nodes, positioned := [] }
    (List.range nodes.length)).map LayoutState.nodes

/-- `createSkillTreeData` from `skill-tree-data.ts`: build nodes, compute
dependents, resolve positions.  `none` exactly when the layout recursion
exceeds the fuel. -/
def createSkillTreeData (fuel : Nat) (exercises : List Exercise)
    (paths : List Path) : Option (List SkillTreeNode) :=
  resolveLayout fuel (computeDependents (exercises.map (initialNode paths)))

/-! ### Structural facts about the layout pass -/

/-- Everything about a node except its (mutable) position. -/
def shapeF (n : SkillTreeNode) : Exercise × Path × List String × List String :=
  (n.exercise, n.path, n.dependencies, n.dependents)

/-- The position-independent view of a node array. -/
def shape (nodes : List SkillTreeNode) : List (Exercise × Path × List String × List String) :=
  nodes.map shapeF

/-- The slug array of a node array. -/
def slugs (nodes : List SkillTreeNode) : List String :=
  nodes.map fun n => n.exercise.slug

theorem slugs_eq_of_shape_eq {a b : List SkillTreeNode} (h : shape a = shape b) :
    slugs a = slugs b := by
  have ha : slugs a = (shape a).map fun t => t.1.slug := by
    simp [slugs, shape, List.map_map, shapeF]
  have hb : slugs b = (shape b).map fun t => t.1.slug := by
    simp [slugs, shape, List.map_map, shapeF]
  rw [ha, hb, h]

theorem lastIdx?_congr {a b : List SkillTreeNode} (h : slugs a = slugs b) (s : String) :
    lastIdx? a s = lastIdx? b s := by
  induction a generalizing b with
  | nil =>
    have : b = [] := by
      cases b with
      | nil => rfl
      | cons x xs => simp [slugs] at h
    subst this; rfl
  | cons x xs ih =>
    cases b with
    | nil => simp [slugs] at h
    | cons y ys =>
      simp only [slugs, List.map_cons, List.cons.injEq] at h
      have hxy : x.exercise.slug = y.exercise.slug := h.1
      have htl : lastIdx? xs s = lastIdx? ys s := ih (by simpa [slugs] using h.2)
      simp only [lastIdx?, htl, hxy]

theorem lastIdx?_some {nodes : List SkillTreeNode} {s : String} {j : Nat}
    (h : lastIdx? nodes s = some j) :
    ∃ n, nodes[j]? = some n ∧ n.exercise.slug = s := by
  induction nodes generalizing j with
  | nil => simp [lastIdx?] at h
  | cons x xs ih =>
    simp only [lastIdx?] at h
    cases hx : lastIdx? xs s with
    | some j' =>
      rw [hx] at h
      obtain ⟨n, hn, hs⟩ := ih hx
      cases h
      exact ⟨n, by simpa using hn, hs⟩
    | none =>
      rw [hx] at h
      by_cases hslug : x.exercise.slug = s
      · simp only [hslug, if_pos rfl] at h
        cases h
        exact ⟨x, by simp, hslug⟩
      · simp [hslug] at h

theorem lastIdx?_isSome_iff (nodes : List SkillTreeNode) (s : String) :
    (lastIdx? nodes s).isSome ↔ s ∈ slugs nodes := by
  induction nodes with
  | nil => simp [lastIdx?, slugs]
  | cons x xs ih =>
    simp only [lastIdx?, slugs, List.map_cons, List.mem_cons]
    cases hx : lastIdx? xs s with
    | some j =>
      have hmem : s ∈ slugs xs := ih.mp (by simp [hx])
      simp only [Option.isSome_some, true_iff]
      exact Or.inr (by simpa [slugs] using hmem)
    | none =>
      have hns : s ∉ slugs xs := fun hmem => by
        have h2 := ih.mpr hmem
        simp [hx] at h2
      by_cases hslug : x.exercise.slug = s
      · simp [hslug]
      · simp only [hslug, if_false, Option.isSome_none, Bool.false_eq_true, false_iff]
        intro h
        rcases h with h | h
        · exact hslug h.symm
        · exact hns (by simpa [slugs] using h)


theorem calculatePosition_zero (st : LayoutState) (i : Nat) :
    calculatePosition 0 st i = none := rfl

theorem calculatePosition_succ (fuel : Nat) (st : LayoutState) (i : Nat) :
    calculatePosition (fuel + 1) st i =
      match st.nodes[i]? with
      | none => some st
      | some node =>
        if node.exercise.slug ∈ st.positioned then some st
        else if node.dependencies = [] then
          some { nodes := st.nodes.set i
                   { node with position := node.exercise.position.getD ⟨0, 0⟩ },
                 positioned := st.positioned.insert node.exercise.slug }
        else
          match positionDeps fuel st node.dependencies with
          | none => none
          | some st' =>
            let lastDepPosition := anchorPos st'.nodes node.dependencies
            let relativePosition := node.exercise.position.getD ⟨0, 50⟩
            some { nodes := st'.nodes.set i
                     { node with position := ⟨lastDepPosition.x + relativePosition.x,
                                              lastDepPosition.y + relativePosition.y⟩ },
                   positioned := st'.positioned.insert node.exercise.slug } := rfl

theorem positionDeps_nil (fuel : Nat) (st : LayoutState) :
    positionDeps fuel st [] = some st := rfl

theorem positionDeps_cons (fuel : Nat) (st : LayoutState) (depSlug : String)
    (rest : List String) :
    positionDeps fuel st (depSlug :: rest) =
      match lastIdx? st.nodes depSlug with
      | some _j =>
        if depSlug ∈ st.positioned then positionDeps fuel st rest
        else
          match calculatePosition fuel st _j with
          | none => none
          | some st' => positionDeps fuel st' rest
      | none => positionDeps fuel st rest := rfl

/-! Targeted unfolding equations, one per execution branch. -/

theorem calcPos_oob {fuel : Nat} {st : LayoutState} {i : Nat}
    (hnode : st.nodes[i]? = none) :
    calculatePosition (fuel + 1) st i = some st := by
  simp [calculatePosition_succ, hnode]

theorem calcPos_done {fuel : Nat} {st : LayoutState} {i : Nat} {node : SkillTreeNode}
    (hnode : st.nodes[i]? = some node) (hpos : node.exercise.slug ∈ st.positioned) :
    calculatePosition (fuel + 1) st i = some st := by
  simp [calculatePosition_succ, hnode, hpos]

theorem calcPos_root {fuel : Nat} {st : LayoutState} {i : Nat} {node : SkillTreeNode}
    (hnode : st.nodes[i]? = some node) (hpos : node.exercise.slug ∉ st.positioned)
    (hdeps : node.dependencies = []) :
    calculatePosition (fuel + 1) st i =
      some { nodes := st.nodes.set i
               { node with position := node.exercise.position.getD ⟨0, 0⟩ },
             positioned := st.positioned.insert node.exercise.slug } := by
  simp [calculatePosition_succ, hnode, hpos, hdeps]

theorem calcPos_rec_none {fuel : Nat} {st : LayoutState} {i : Nat}
    {node : SkillTreeNode} (hnode : st.nodes[i]? = some node)
    (hpos : node.exercise.slug ∉ st.positioned) (hdeps : node.dependencies ≠ [])
    (hpd : positionDeps fuel st node.dependencies = none) :
    calculatePosition (fuel + 1) st i = none := by
  simp [calculatePosition_succ, hnode, hpos, hdeps, hpd]

theorem calcPos_rec_some {fuel : Nat} {st st1 : LayoutState} {i : Nat}
    {node : SkillTreeNode} (hnode : st.nodes[i]? = some node)
    (hpos : node.exercise.slug ∉ st.positioned) (hdeps : node.dependencies ≠ [])
    (hpd : positionDeps fuel st node.dependencies = some st1) :
    calculatePosition (fuel + 1) st i =
      some { nodes := st1.nodes.set i
               { node with position :=
                  ⟨(anchorPos st1.nodes node.dependencies).x +
                     (node.exercise.position.getD ⟨0, 50⟩).x,
                   (anchorPos st1.nodes node.dependencies).y +
                     (node.exercise.position.getD ⟨0, 50⟩).y⟩ },
             positioned := st1.positioned.insert node.exercise.slug } := by
  simp [calculatePosition_succ, hnode, hpos, hdeps, hpd]

theorem posDeps_unres {fuel : Nat} {st : LayoutState} {d : String}
    {rest : List String} (hidx : lastIdx? st.nodes d = none) :
    positionDeps fuel st (d :: rest) = positionDeps fuel st rest := by
  simp [positionDeps_cons, hidx]

theorem posDeps_skip {fuel : Nat} {st : LayoutState} {d : String} {j : Nat}
    {rest : List String} (hidx : lastIdx? st.nodes d = some j)
    (hpos : d ∈ st.positioned) :
    positionDeps fuel st (d :: rest) = positionDeps fuel st rest := by
  simp [positionDeps_cons, hidx, hpos]

theorem posDeps_go_none {fuel : Nat} {st : LayoutState} {d : String} {j : Nat}
    {rest : List String} (hidx : lastIdx? st.nodes d = some j)
    (hpos : d ∉ st.positioned) (hcp : calculatePosition fuel st j = none) :
    positionDeps fuel st (d :: rest) = none := by
  simp [positionDeps_cons, hidx, hpos, hcp]

theorem posDeps_go_some {fuel : Nat} {st st1 : LayoutState} {d : String} {j : Nat}
    {rest : List String} (hidx : lastIdx? st.nodes d = some j)
    (hpos : d ∉ st.positioned) (hcp : calculatePosition fuel st j = some st1) :
    positionDeps fuel st (d :: rest) = positionDeps fuel st1 rest := by
  simp [positionDeps_cons, hidx, hpos, hcp]

/-- What one resolver step preserves: node shapes, a monotone positioned set,
and stability of nodes whose slug is already positioned. -/
def StepOk (st st' : LayoutState) : Prop :=
  shape st'.nodes = shape st.nodes ∧
  st.positioned ⊆ st'.positioned ∧
  ∀ (k : Nat) (n : SkillTreeNode), st.nodes[k]? = some n →
    n.exercise.slug ∈ st.positioned → st'.nodes[k]? = some n

theorem StepOk.refl (st : LayoutState) : StepOk st st :=
  ⟨rfl, fun _ h => h, fun _ _ h _ => h⟩

theorem StepOk.trans {s1 s2 s3 : LayoutState} (h12 : StepOk s1 s2)
    (h23 : StepOk s2 s3) : StepOk s1 s3 :=
  ⟨h23.1.trans h12.1, fun _ h => h23.2.1 (h12.2.1 h),
   fun k n hk hs => h23.2.2 k n (h12.2.2 k n hk hs) (h12.2.1 hs)⟩

theorem shape_getElem? {a b : List SkillTreeNode} (h : shape a = shape b) (k : Nat) :
    (a[k]?).map shapeF = (b[k]?).map shapeF := by
  have h2 := congrArg (fun l => l[k]?) h
  simpa [shape, List.getElem?_map] using h2

theorem shape_set {nodes : List SkillTreeNode} {i : Nat} {n m : SkillTreeNode}
    (hn : nodes[i]? = some n) (hm : shapeF m = shapeF n) :
    shape (nodes.set i m) = shape nodes := by
  apply List.ext_getElem?
  intro k
  by_cases hk : i = k
  · subst hk
    have hlen : i < nodes.length := (List.getElem?_eq_some_iff.mp hn).1
    simp only [shape, List.getElem?_map, List.getElem?_set_self hlen, hn]
    simp [hm]
  · simp [shape, List.getElem?_map, List.getElem?_set_ne hk]

/-- The combined preservation properties of `calculatePosition` and
`positionDeps`: shapes survive, the positioned set grows, positioned nodes are
stable, the visited node's slug ends positioned, and every resolvable
dependency processed by `positionDeps` ends positioned. -/
theorem calcPos_ok (fuel : Nat) :
    (∀ (st : LayoutState) (i : Nat) (st' : LayoutState),
      calculatePosition fuel st i = some st' →
      StepOk st st' ∧ ∀ (m : SkillTreeNode), st.nodes[i]? = some m →
        m.exercise.slug ∈ st'.positioned) ∧
    (∀ (st : LayoutState) (deps : List String) (st' : LayoutState),
      positionDeps fuel st deps = some st' →
      StepOk st st' ∧ ∀ d ∈ deps, (lastIdx? st.nodes d).isSome → d ∈ st'.positioned) := by
  induction fuel with
  | zero =>
    constructor
    · intro st i st' h
      rw [calculatePosition_zero] at h
      cases h
    · intro st deps
      induction deps generalizing st with
      | nil =>
        intro st' h
        rw [positionDeps_nil] at h
        cases h
        exact ⟨StepOk.refl st, fun d hd _ => absurd hd (List.not_mem_nil d)⟩
      | cons d rest ih =>
        intro st' h
        cases hidx : lastIdx? st.nodes d with
        | some j =>
          by_cases hpos : d ∈ st.positioned
          · rw [posDeps_skip hidx hpos] at h
            obtain ⟨hok, hcov⟩ := ih st st' h
            refine ⟨hok, fun e he hsome => ?_⟩
            rcases List.mem_cons.mp he with rfl | he'
            · exact hok.2.1 hpos
            · exact hcov e he' hsome
          · rw [posDeps_go_none hidx hpos (calculatePosition_zero st j)] at h
            cases h
        | none =>
          rw [posDeps_unres hidx] at h
          obtain ⟨hok, hcov⟩ := ih st st' h
          refine ⟨hok, fun e he hsome => ?_⟩
          rcases List.mem_cons.mp he with rfl | he'
          · rw [hidx] at hsome; cases hsome
          · exact hcov e he' hsome
  | succ n ihn =>
    have hc : ∀ (st : LayoutState) (i : Nat) (st' : LayoutState),
        calculatePosition (n + 1) st i = some st' →
        StepOk st st' ∧ ∀ (m : SkillTreeNode), st.nodes[i]? = some m →
          m.exercise.slug ∈ st'.positioned := by
      intro st i st' h
      cases hnode : st.nodes[i]? with
      | none =>
        rw [calcPos_oob hnode] at h
        cases h
        exact ⟨StepOk.refl st, fun m hm => Option.noConfusion hm⟩
      | some node =>
        by_cases hpos : node.exercise.slug ∈ st.positioned
        · rw [calcPos_done hnode hpos] at h
          cases h
          refine ⟨StepOk.refl st, fun m hm => ?_⟩
          cases hm; exact hpos
        · by_cases hdeps : node.dependencies = []
          · rw [calcPos_root hnode hpos hdeps] at h
            cases h
            refine ⟨⟨shape_set hnode rfl,
              fun s hs => List.mem_insert_iff.mpr (Or.inr hs),
              fun k m hk hs => ?_⟩, fun m hm => ?_⟩
            · have hki : i ≠ k := by
                intro hik; subst hik
                rw [hnode] at hk; cases hk; exact hpos hs
              simpa [List.getElem?_set_ne hki] using hk
            · cases hm
              exact List.mem_insert_iff.mpr (Or.inl rfl)
          · cases hdep : positionDeps n st node.dependencies with
            | none =>
              rw [calcPos_rec_none hnode hpos hdeps hdep] at h
              cases h
            | some st1 =>
              rw [calcPos_rec_some hnode hpos hdeps hdep] at h
              cases h
              obtain ⟨hok1, -⟩ := (ihn.2) st node.dependencies st1 hdep
              have hset : shape (st1.nodes.set i
                  { node with position := ⟨(anchorPos st1.nodes node.dependencies).x +
                      (node.exercise.position.getD ⟨0, 50⟩).x,
                    (anchorPos st1.nodes node.dependencies).y +
                      (node.exercise.position.getD ⟨0, 50⟩).y⟩ }) = shape st1.nodes := by
                cases hm1 : st1.nodes[i]? with
                | none =>
                  exfalso
                  have h2 := shape_getElem? hok1.1 i
                  rw [hm1, hnode] at h2
                  simp at h2
                | some m1 =>
                  refine shape_set hm1 ?_
                  have h2 := shape_getElem? hok1.1 i
                  rw [hm1, hnode] at h2
                  have h3 : shapeF m1 = shapeF node := by simpa using h2
                  exact h3.symm
              refine ⟨⟨hset.trans hok1.1,
                fun s hs => List.mem_insert_iff.mpr (Or.inr (hok1.2.1 hs)),
                fun k m hk hs => ?_⟩, fun m hm => ?_⟩
              · have hki : i ≠ k := by
                  intro hik; subst hik
                  rw [hnode] at hk; cases hk; exact hpos hs
                rw [List.getElem?_set_ne hki]
                exact hok1.2.2 k m hk hs
              · cases hm
                exact List.mem_insert_iff.mpr (Or.inl rfl)
    refine ⟨hc, ?_⟩
    intro st deps
    induction deps generalizing st with
    | nil =>
      intro st' h
      rw [positionDeps_nil] at h
      cases h
      exact ⟨StepOk.refl st, fun d hd _ => absurd hd (List.not_mem_nil d)⟩
    | cons d rest ih =>
      intro st' h
      cases hidx : lastIdx? st.nodes d with
      | some j =>
        by_cases hpos : d ∈ st.positioned
        · rw [posDeps_skip hidx hpos] at h
          obtain ⟨hok, hcov⟩ := ih st st' h
          refine ⟨hok, fun e he hsome => ?_⟩
          rcases List.mem_cons.mp he with rfl | he'
          · exact hok.2.1 hpos
          · exact hcov e he' hsome
        · cases hcp : calculatePosition (n + 1) st j with
          | none =>
            rw [posDeps_go_none hidx hpos hcp] at h
            cases h
          | some st1 =>
            rw [posDeps_go_some hidx hpos hcp] at h
            obtain ⟨hok1, hvisit⟩ := hc st j st1 hcp
            obtain ⟨hok2, hcov⟩ := ih st1 st' h
            obtain ⟨nj, hnj, hnjs⟩ := lastIdx?_some hidx
            refine ⟨hok1.trans hok2, fun e he hsome => ?_⟩
            rcases List.mem_cons.mp he with rfl | he'
            · exact hok2.2.1 (hnjs ▸ hvisit nj hnj)
            · have hsl : slugs st1.nodes = slugs st.nodes := slugs_eq_of_shape_eq hok1.1
              exact hcov e he' (by rwa [lastIdx?_congr hsl])
      | none =>
        rw [posDeps_unres hidx] at h
        obtain ⟨hok, hcov⟩ := ih st st' h
        refine ⟨hok, fun e he hsome => ?_⟩
        rcases List.mem_cons.mp he with rfl | he'
        · rw [hidx] at hsome; cases hsome
        · exact hcov e he' hsome

theorem slugs_getElem? {nodes : List SkillTreeNode} {k : Nat} {n : SkillTreeNode}
    (h : nodes[k]? = some n) : (slugs nodes)[k]? = some n.exercise.slug := by
  simp [slugs, List.getElem?_map, h]

theorem nodup_slug_unique {nodes : List SkillTreeNode}
    (hnd : List.Nodup (slugs nodes)) {i k : Nat} {n m : SkillTreeNode}
    (hi : nodes[i]? = some n) (hk : nodes[k]? = some m)
    (hs : n.exercise.slug = m.exercise.slug) : i = k := by
  have h1 := slugs_getElem? hi
  have h2 := slugs_getElem? hk
  have hlen : i < (slugs nodes).length :=
    (List.getElem?_eq_some_iff.mp h1).1
  exact List.getElem?_inj hlen hnd (by rw [h1, h2, hs])

theorem calcAll_ok (fuel : Nat) (l : List Nat) :
    ∀ (st st' : LayoutState), calcAll fuel st l = some st' →
      StepOk st st' ∧ ∀ i ∈ l, ∀ (m : SkillTreeNode), st.nodes[i]? = some m →
        m.exercise.slug ∈ st'.positioned := by
  induction l with
  | nil =>
    intro st st' h
    simp only [calcAll] at h
    cases h
    exact ⟨StepOk.refl st, fun i hi => absurd hi (List.not_mem_nil i)⟩
  | cons i rest ih =>
    intro st st' h
    cases hcp : calculatePosition fuel st i with
    | none => simp [calcAll, hcp] at h
    | some st1 =>
      simp only [calcAll, hcp] at h
      obtain ⟨hok1, hvisit⟩ := (calcPos_ok fuel).1 st i st1 hcp
      obtain ⟨hok2, hcov⟩ := ih st1 st' h
      refine ⟨hok1.trans hok2, fun i' hi' m hm => ?_⟩
      rcases List.mem_cons.mp hi' with rfl | hi''
      · exact hok2.2.1 (hvisit m hm)
      · have hsh := shape_getElem? hok1.1 i'
        rw [hm] at hsh
        cases hm1 : st1.nodes[i']? with
        | none => rw [hm1] at hsh; simp at hsh
        | some m1 =>
          rw [hm1] at hsh
          simp only [Option.map_some', Option.some.injEq] at hsh
          have hslug : m1.exercise.slug = m.exercise.slug :=
            congrArg (fun t => t.1.slug) hsh
          exact hslug ▸ hcov i' hi'' m1 hm1

/-- Root-position invariant: a positioned node with no dependencies holds its
exercise's own offset (or the origin). -/
def RootPosOk (st : LayoutState) : Prop :=
  ∀ (k : Nat) (node : SkillTreeNode), st.nodes[k]? = some node →
    node.exercise.slug ∈ st.positioned → node.dependencies = [] →
    node.position = node.exercise.position.getD ⟨0, 0⟩

theorem calcPos_rootPosOk (fuel : Nat) :
    (∀ (st : LayoutState) (i : Nat) (st' : LayoutState),
      List.Nodup (slugs st.nodes) → calculatePosition fuel st i = some st' →
      RootPosOk st → RootPosOk st') ∧
    (∀ (st : LayoutState) (deps : List String) (st' : LayoutState),
      List.Nodup (slugs st.nodes) → positionDeps fuel st deps = some st' →
      RootPosOk st → RootPosOk st') := by
  induction fuel with
  | zero =>
    constructor
    · intro st i st' _ h
      rw [calculatePosition_zero] at h
      cases h
    · intro st deps
      induction deps generalizing st with
      | nil =>
        intro st' _ h hr
        rw [positionDeps_nil] at h
        cases h
        exact hr
      | cons d rest ihd =>
        intro st' hnd h hr
        cases hidx : lastIdx? st.nodes d with
        | some j =>
          by_cases hpos : d ∈ st.positioned
          · rw [posDeps_skip hidx hpos] at h
            exact ihd st st' hnd h hr
          · rw [posDeps_go_none hidx hpos (calculatePosition_zero st j)] at h
            cases h
        | none =>
          rw [posDeps_unres hidx] at h
          exact ihd st st' hnd h hr
  | succ n ihn =>
    have hc : ∀ (st : LayoutState) (i : Nat) (st' : LayoutState),
        List.Nodup (slugs st.nodes) → calculatePosition (n + 1) st i = some st' →
        RootPosOk st → RootPosOk st' := by
      intro st i st' hnd h hr
      cases hnode : st.nodes[i]? with
      | none =>
        rw [calcPos_oob hnode] at h
        cases h
        exact hr
      | some node =>
        by_cases hpos : node.exercise.slug ∈ st.positioned
        · rw [calcPos_done hnode hpos] at h
          cases h
          exact hr
        · by_cases hdeps : node.dependencies = []
          · rw [calcPos_root hnode hpos hdeps] at h
            cases h
            intro k nk hk hks hkd
            by_cases hki : i = k
            · subst hki
              have hlen : i < st.nodes.length := (List.getElem?_eq_some_iff.mp hnode).1
              rw [List.getElem?_set_self hlen] at hk
              cases hk
              rfl
            · rw [List.getElem?_set_ne hki] at hk
              rcases List.mem_insert_iff.mp hks with hglue | hks'
              · exact absurd (nodup_slug_unique hnd hnode hk hglue.symm) hki
              · exact hr k nk hk hks' hkd
          · cases hdep : positionDeps n st node.dependencies with
            | none =>
              rw [calcPos_rec_none hnode hpos hdeps hdep] at h
              cases h
            | some st1 =>
              rw [calcPos_rec_some hnode hpos hdeps hdep] at h
              cases h
              obtain ⟨hok1, -⟩ := (calcPos_ok n).2 st node.dependencies st1 hdep
              have hnd1 : List.Nodup (slugs st1.nodes) := by
                rwa [slugs_eq_of_shape_eq hok1.1]
              have hr1 : RootPosOk st1 := ihn.2 st node.dependencies st1 hnd hdep hr
              intro k nk hk hks hkd
              by_cases hki : i = k
              · subst hki
                have hlen : i < st1.nodes.length := by
                  have hsh := shape_getElem? hok1.1 i
                  rw [hnode] at hsh
                  cases hm1 : st1.nodes[i]? with
                  | none => rw [hm1] at hsh; simp at hsh
                  | some m1 => exact (List.getElem?_eq_some_iff.mp hm1).1
                rw [List.getElem?_set_self hlen] at hk
                cases hk
                exact absurd hkd hdeps
              · rw [List.getElem?_set_ne hki] at hk
                rcases List.mem_insert_iff.mp hks with hglue | hks'
                · cases hm1 : st1.nodes[i]? with
                  | none =>
                    have hsh := shape_getElem? hok1.1 i
                    rw [hnode, hm1] at hsh
                    simp at hsh
                  | some m1 =>
                    have hsh := shape_getElem? hok1.1 i
                    rw [hnode, hm1] at hsh
                    simp only [Option.map_some', Option.some.injEq] at hsh
                    have hslug : m1.exercise.slug = node.exercise.slug :=
                      congrArg (fun t => t.1.slug) hsh
                    exact absurd
                      (nodup_slug_unique hnd1 hm1 hk (hslug.trans hglue.symm)) hki
                · exact hr1 k nk hk hks' hkd
    refine ⟨hc, ?_⟩
    intro st deps
    induction deps generalizing st with
    | nil =>
      intro st' _ h hr
      rw [positionDeps_nil] at h
      cases h
      exact hr
    | cons d rest ihd =>
      intro st' hnd h hr
      cases hidx : lastIdx? st.nodes d with
      | some j =>
        by_cases hpos : d ∈ st.positioned
        · rw [posDeps_skip hidx hpos] at h
          exact ihd st st' hnd h hr
        · cases hcp : calculatePosition (n + 1) st j with
          | none =>
            rw [posDeps_go_none hidx hpos hcp] at h
            cases h
          | some st1 =>
            rw [posDeps_go_some hidx hpos hcp] at h
            obtain ⟨hok1, -⟩ := (calcPos_ok (n + 1)).1 st j st1 hcp
            have hnd1 : List.Nodup (slugs st1.nodes) := by
              rwa [slugs_eq_of_shape_eq hok1.1]
            exact ihd st1 st' hnd1 h (hc st j st1 hnd hcp hr)
      | none =>
        rw [posDeps_unres hidx] at h
        exact ihd st st' hnd h hr

theorem slugs_addDependent (l : List SkillTreeNode) (d s : String) :
    slugs (addDependent l d s) = slugs l := by
  induction l with
  | nil => rfl
  | cons n rest ih =>
    by_cases h : n.exercise.slug = d
    · simp [addDependent, h, slugs]
    · simp [addDependent, h, slugs] at ih ⊢
      exact ih

theorem slugs_foldAdd (ds : List String) (s : String) :
    ∀ l : List SkillTreeNode,
      slugs (ds.foldl (fun acc2 d => addDependent acc2 d s) l) = slugs l := by
  induction ds with
  | nil => intro l; rfl
  | cons d rest ih =>
    intro l
    rw [List.foldl_cons, ih, slugs_addDependent]

theorem slugs_computeDependents (nodes : List SkillTreeNode) :
    slugs (computeDependents nodes) = slugs nodes := by
  unfold computeDependents
  generalize (nodes.map fun n => (n.exercise.slug, n.dependencies)) = P
  induction P generalizing nodes with
  | nil => rfl
  | cons p rest ih =>
    rw [List.foldl_cons]
    have h1 := slugs_foldAdd p.2 p.1 nodes
    calc slugs (rest.foldl _ (p.2.foldl (fun acc2 d => addDependent acc2 d p.1) nodes))
        = slugs (p.2.foldl (fun acc2 d => addDependent acc2 d p.1) nodes) := ih _
      _ = slugs nodes := h1

theorem slugs_initialNodes (exercises : List Exercise) (paths : List Path) :
    slugs (exercises.map (initialNode paths)) = exercises.map Exercise.slug := by
  simp [slugs, List.map_map, initialNode]

theorem calcAll_rootPosOk (fuel : Nat) (l : List Nat) :
    ∀ st st' : LayoutState, List.Nodup (slugs st.nodes) → calcAll fuel st l = some st' →
      RootPosOk st → RootPosOk st' := by
  induction l with
  | nil =>
    intro st st' _ h hr
    simp only [calcAll] at h
    cases h
    exact hr
  | cons i rest ih =>
    intro st st' hnd h hr
    cases hcp : calculatePosition fuel st i with
    | none => simp [calcAll, hcp] at h
    | some st1 =>
      simp only [calcAll, hcp] at h
      obtain ⟨hok1, -⟩ := (calcPos_ok fuel).1 st i st1 hcp
      exact ih st1 st' (by rwa [slugs_eq_of_shape_eq hok1.1]) h
        ((calcPos_rootPosOk fuel).1 st i st1 hnd hcp hr)

theorem createSkillTreeData_decomp (fuel : Nat) (exercises : List Exercise)
    (paths : List Path) (out : List SkillTreeNode)
    (h : createSkillTreeData fuel exercises paths = some out) :
    ∃ stF : LayoutState,
      calcAll fuel
        { nodes := computeDependents (exercises.map (initialNode paths)),
          positioned := [] }
        (List.range (computeDependents (exercises.map (initialNode paths))).length)
        = some stF ∧ out = stF.nodes := by
  unfold createSkillTreeData resolveLayout at h
  cases hca : calcAll fuel
      { nodes := computeDependents (exercises.map (initialNode paths)),
        positioned := [] }
      (List.range (computeDependents (exercises.map (initialNode paths))).length) with
  | none => rw [hca] at h; cases h
  | some stF =>
    rw [hca] at h
    simp only [Option.map_some', Option.some.injEq] at h
    exact ⟨stF, rfl, h.symm⟩

/-- After a successful build every node's slug is positioned, and the final
node array keeps the shape of the built one. -/
theorem createSkillTreeData_final (fuel : Nat) (exercises : List Exercise)
    (paths : List Path) (out : List SkillTreeNode)
    (h : createSkillTreeData fuel exercises paths = some out) :
    ∃ stF : LayoutState, out = stF.nodes ∧
      shape stF.nodes = shape (computeDependents (exercises.map (initialNode paths))) ∧
      ∀ (k : Nat) (m : SkillTreeNode), stF.nodes[k]? = some m →
        m.exercise.slug ∈ stF.positioned := by
  obtain ⟨stF, hca, hout⟩ := createSkillTreeData_decomp fuel exercises paths out h
  obtain ⟨hok, hcov⟩ := calcAll_ok fuel _ _ _ hca
  refine ⟨stF, hout, hok.1, fun k m hk => ?_⟩
  have hsh := shape_getElem? hok.1 k
  rw [hk] at hsh
  cases hm0 : (computeDependents (exercises.map (initialNode paths)))[k]? with
  | none => rw [hm0] at hsh; simp at hsh
  | some n0 =>
    rw [hm0] at hsh
    simp only [Option.map_some', Option.some.injEq] at hsh
    have hslug : m.exercise.slug = n0.exercise.slug :=
      congrArg (fun t => t.1.slug) hsh
    have hkr : k ∈ List.range
        (computeDependents (exercises.map (initialNode paths))).length := by
      simpa [List.mem_range] using (List.getElem?_eq_some_iff.mp hm0).1
    rw [hslug]
    exact hcov k hkr n0 hm0

/-- C5: after a successful build of a duplicate-free exercise set, every node
with no dependencies sits at its exercise's own offset (default the origin). -/
theorem resolved_root_position (fuel : Nat) (exercises : List Exercise)
    (paths : List Path) (out : List SkillTreeNode)
    (hnd : (exercises.map Exercise.slug).Nodup)
    (h : createSkillTreeData fuel exercises paths = some out) :
    ∀ node ∈ out, node.dependencies = [] →
      node.position = node.exercise.position.getD ⟨0, 0⟩ := by
  obtain ⟨stF, hca, hout⟩ := createSkillTreeData_decomp fuel exercises paths out h
  obtain ⟨stF2, hout2, hshape2, hposall⟩ :=
    createSkillTreeData_final fuel exercises paths out h
  have hnd1 : (slugs (computeDependents (exercises.map (initialNode paths)))).Nodup := by
    rwa [slugs_computeDependents, slugs_initialNodes]
  have hroot0 : RootPosOk
      { nodes := computeDependents (exercises.map (initialNode paths)),
        positioned := [] } :=
    fun _ _ _ hmem _ => absurd hmem (List.not_mem_nil _)
  have hrootF : RootPosOk stF := calcAll_rootPosOk fuel _ _ stF hnd1 hca hroot0
  intro node hmem hdeps
  obtain ⟨k, hk⟩ := List.mem_iff_getElem?.mp hmem
  rw [hout] at hk
  have hpos : node.exercise.slug ∈ stF.positioned := by
    obtain ⟨hokF, hcovF⟩ := calcAll_ok fuel _ _ _ hca
    have hsh := shape_getElem? hokF.1 k
    rw [hk] at hsh
    cases hm0 : (computeDependents (exercises.map (initialNode paths)))[k]? with
    | none => rw [hm0] at hsh; simp at hsh
    | some n0 =>
      rw [hm0] at hsh
      simp only [Option.map_some', Option.some.injEq] at hsh
      have hslug : node.exercise.slug = n0.exercise.slug :=
        congrArg (fun t => t.1.slug) hsh
      have hkr : k ∈ List.range
          (computeDependents (exercises.map (initialNode paths))).length := by
        simpa [List.mem_range] using (List.getElem?_eq_some_iff.mp hm0).1
      rw [hslug]
      exact hcovF k hkr n0 hm0
  exact hrootF k node hk hpos hdeps

/-! ### The anchor rule actually implemented -/

/-- The position rule the resolver establishes for a positioned node: roots
keep their own offset; dependent nodes sit at the anchor-scan result (which
starts from `(0,0)`, not from any dependency) plus their relative offset. -/
def PosOk (nodes : List SkillTreeNode) (node : SkillTreeNode) : Prop :=
  (node.dependencies = [] → node.position = node.exercise.position.getD ⟨0, 0⟩) ∧
  (node.dependencies ≠ [] → node.position =
    ⟨(anchorPos nodes node.dependencies).x + (node.exercise.position.getD ⟨0, 50⟩).x,
     (anchorPos nodes node.dependencies).y + (node.exercise.position.getD ⟨0, 50⟩).y⟩)

/-- Full layout invariant: every positioned node satisfies the position rule,
and its resolvable dependencies are positioned. -/
def LayoutInv (st : LayoutState) : Prop :=
  ∀ (k : Nat) (node : SkillTreeNode), st.nodes[k]? = some node →
    node.exercise.slug ∈ st.positioned →
    PosOk st.nodes node ∧
    ∀ d ∈ node.dependencies, (lastIdx? st.nodes d).isSome → d ∈ st.positioned

/-- A rank function witnessing acyclicity of the resolvable dependency edges. -/
def DepRank (nodes : List SkillTreeNode) (rank : String → Nat) : Prop :=
  ∀ (k : Nat) (n : SkillTreeNode), nodes[k]? = some n →
    ∀ d ∈ n.dependencies, (lastIdx? nodes d).isSome → rank d < rank n.exercise.slug

theorem depRank_congr {a b : List SkillTreeNode} {rank : String → Nat}
    (h : shape a = shape b) (hr : DepRank b rank) : DepRank a rank := by
  intro k n hk d hd hsome
  have hsh := shape_getElem? h k
  rw [hk] at hsh
  cases hb : b[k]? with
  | none => rw [hb] at hsh; simp at hsh
  | some m =>
    rw [hb] at hsh
    simp only [Option.map_some', Option.some.injEq] at hsh
    have hdeps : n.dependencies = m.dependencies :=
      congrArg (fun t => t.2.2.1) hsh
    have hslug : n.exercise.slug = m.exercise.slug :=
      congrArg (fun t => t.1.slug) hsh
    rw [hslug]
    refine hr k m hb d (hdeps ▸ hd) ?_
    rwa [lastIdx?_congr (slugs_eq_of_shape_eq h)] at hsome

theorem anchorPos_congr {a b : List SkillTreeNode} {deps : List String}
    (h : ∀ d ∈ deps, nodeMapGet a d = nodeMapGet b d) :
    anchorPos a deps = anchorPos b deps := by
  unfold anchorPos
  suffices hgen : ∀ best : Point,
      deps.foldl (fun best depSlug =>
        match nodeMapGet a depSlug with
        | some depNode =>
          if depNode.position.x + depNode.position.y > best.x + best.y then
            depNode.position
          else best
        | none => best) best =
      deps.foldl (fun best depSlug =>
        match nodeMapGet b depSlug with
        | some depNode =>
          if depNode.position.x + depNode.position.y > best.x + best.y then
            depNode.position
          else best
        | none => best) best by
    exact hgen ⟨0, 0⟩
  induction deps with
  | nil => intro best; rfl
  | cons d rest ih =>
    intro best
    rw [List.foldl_cons, List.foldl_cons, h d (List.mem_cons_self d rest)]
    exact ih (fun e he => h e (List.mem_cons_of_mem d he)) _

theorem posOk_congr {a b : List SkillTreeNode} {node : SkillTreeNode}
    (h : ∀ d ∈ node.dependencies, nodeMapGet a d = nodeMapGet b d)
    (hp : PosOk b node) : PosOk a node :=
  ⟨hp.1, fun hdeps => by rw [anchorPos_congr h]; exact hp.2 hdeps⟩

/-- Reads through the node map are stable once the target is positioned (or
absent). -/
theorem nodeMapGet_stable {st st' : LayoutState} (hok : StepOk st st') {d : String}
    (hd : d ∈ st.positioned ∨ lastIdx? st.nodes d = none) :
    nodeMapGet st'.nodes d = nodeMapGet st.nodes d := by
  have hsl : slugs st'.nodes = slugs st.nodes := slugs_eq_of_shape_eq hok.1
  unfold nodeMapGet
  rw [lastIdx?_congr hsl]
  cases hidx : lastIdx? st.nodes d with
  | none => rfl
  | some j =>
    show st'.nodes[j]? = st.nodes[j]?
    rcases hd with hd | hd
    · obtain ⟨nj, hnj, hnjs⟩ := lastIdx?_some hidx
      rw [hnj]
      exact hok.2.2 j nj hnj (by rwa [hnjs])
    · rw [hd] at hidx; cases hidx

/-- Reads through the node map ignore a write at an index no dependency
resolves to. -/
theorem nodeMapGet_set_ne {nodes : List SkillTreeNode} {i : Nat}
    {m : SkillTreeNode} {d : String}
    (hsl : slugs (nodes.set i m) = slugs nodes)
    (hne : lastIdx? nodes d ≠ some i) :
    nodeMapGet (nodes.set i m) d = nodeMapGet nodes d := by
  unfold nodeMapGet
  rw [lastIdx?_congr hsl]
  cases hidx : lastIdx? nodes d with
  | none => rfl
  | some j =>
    show (nodes.set i m)[j]? = nodes[j]?
    have hji : i ≠ j := fun hij => hne (by rw [hij]; exact hidx)
    rw [List.getElem?_set_ne hji]

/-- The layout invariant is preserved by `calculatePosition`/`positionDeps`,
together with a rank bound on newly positioned slugs (under a duplicate-free,
acyclic graph). -/
theorem calcPos_layoutInv (rank : String → Nat) (fuel : Nat) :
    (∀ (st : LayoutState) (i : Nat) (st' : LayoutState) (node : SkillTreeNode),
      (slugs st.nodes).Nodup → DepRank st.nodes rank →
      st.nodes[i]? = some node →
      calculatePosition fuel st i = some st' → LayoutInv st →
      LayoutInv st' ∧
      ∀ s ∈ st'.positioned, s ∈ st.positioned ∨ s = node.exercise.slug ∨
        rank s < rank node.exercise.slug) ∧
    (∀ (st : LayoutState) (deps : List String) (st' : LayoutState) (B : Nat),
      (slugs st.nodes).Nodup → DepRank st.nodes rank →
      (∀ d ∈ deps, (lastIdx? st.nodes d).isSome → rank d < B) →
      positionDeps fuel st deps = some st' → LayoutInv st →
      LayoutInv st' ∧ ∀ s ∈ st'.positioned, s ∈ st.positioned ∨ rank s < B) := by
  induction fuel with
  | zero =>
    constructor
    · intro st i st' node _ _ _ h
      rw [calculatePosition_zero] at h
      cases h
    · intro st deps
      induction deps generalizing st with
      | nil =>
        intro st' B _ _ _ h hinv
        rw [positionDeps_nil] at h
        cases h
        exact ⟨hinv, fun s hs => Or.inl hs⟩
      | cons d rest ihd =>
        intro st' B hnd hdr hB h hinv
        cases hidx : lastIdx? st.nodes d with
        | some j =>
          by_cases hpos : d ∈ st.positioned
          · rw [posDeps_skip hidx hpos] at h
            exact ihd st st' B hnd hdr
              (fun e he hsome => hB e (List.mem_cons_of_mem d he) hsome) h hinv
          · rw [posDeps_go_none hidx hpos (calculatePosition_zero st j)] at h
            cases h
        | none =>
          rw [posDeps_unres hidx] at h
          exact ihd st st' B hnd hdr
            (fun e he hsome => hB e (List.mem_cons_of_mem d he) hsome) h hinv
  | succ n ihn =>
    have hc : ∀ (st : LayoutState) (i : Nat) (st' : LayoutState) (node : SkillTreeNode),
        (slugs st.nodes).Nodup → DepRank st.nodes rank →
        st.nodes[i]? = some node →
        calculatePosition (n + 1) st i = some st' → LayoutInv st →
        LayoutInv st' ∧
        ∀ s ∈ st'.positioned, s ∈ st.positioned ∨ s = node.exercise.slug ∨
          rank s < rank node.exercise.slug := by
      intro st i st' node hnd hdr hnode h hinv
      by_cases hpos : node.exercise.slug ∈ st.positioned
      · rw [calcPos_done hnode hpos] at h
        cases h
        exact ⟨hinv, fun s hs => Or.inl hs⟩
      · by_cases hdeps : node.dependencies = []
        · rw [calcPos_root hnode hpos hdeps] at h
          cases h
          have hlen : i < st.nodes.length := (List.getElem?_eq_some_iff.mp hnode).1
          have hsh : shape (st.nodes.set i
              { node with position := node.exercise.position.getD ⟨0, 0⟩ }) =
              shape st.nodes := shape_set hnode rfl
          have hsl : slugs (st.nodes.set i
              { node with position := node.exercise.position.getD ⟨0, 0⟩ }) =
              slugs st.nodes := slugs_eq_of_shape_eq hsh
          constructor
          · intro k nk hk hks
            by_cases hki : i = k
            · subst hki
              rw [List.getElem?_set_self hlen] at hk
              cases hk
              refine ⟨⟨fun _ => rfl, fun hne => absurd hdeps hne⟩, fun d hd => ?_⟩
              exact absurd hd (by simp [hdeps])
            · rw [List.getElem?_set_ne hki] at hk
              rcases List.mem_insert_iff.mp hks with hglue | hks'
              · exact absurd (nodup_slug_unique hnd hnode hk hglue.symm) hki
              · obtain ⟨hpok, hdpos⟩ := hinv k nk hk hks'
                have hmg : ∀ d ∈ nk.dependencies,
                    nodeMapGet (st.nodes.set i
                      { node with position := node.exercise.position.getD ⟨0, 0⟩ }) d =
                    nodeMapGet st.nodes d := by
                  intro d hd
                  refine nodeMapGet_set_ne hsl fun hsome => ?_
                  obtain ⟨ni, hni, hnis⟩ := lastIdx?_some hsome
                  rw [hnode] at hni
                  cases hni
                  exact hpos (hnis ▸ hdpos d hd (by simp [hsome]))
                refine ⟨posOk_congr hmg hpok, fun d hd hsome => ?_⟩
                rw [lastIdx?_congr hsl] at hsome
                exact List.mem_insert_iff.mpr (Or.inr (hdpos d hd hsome))
          · intro s hs
            rcases List.mem_insert_iff.mp hs with rfl | hs'
            · exact Or.inr (Or.inl rfl)
            · exact Or.inl hs'
        · cases hdep : positionDeps n st node.dependencies with
          | none =>
            rw [calcPos_rec_none hnode hpos hdeps hdep] at h
            cases h
          | some st1 =>
            rw [calcPos_rec_some hnode hpos hdeps hdep] at h
            cases h
            obtain ⟨hok1, hcov1⟩ := (calcPos_ok n).2 st node.dependencies st1 hdep
            have hBdeps : ∀ d ∈ node.dependencies, (lastIdx? st.nodes d).isSome →
                rank d < rank node.exercise.slug :=
              fun d hd hsome => hdr i node hnode d hd hsome
            obtain ⟨hinv1, hbound1⟩ := ihn.2 st node.dependencies st1
              (rank node.exercise.slug) hnd hdr hBdeps hdep hinv
            have hnotpos1 : node.exercise.slug ∉ st1.positioned := by
              intro hmem
              rcases hbound1 _ hmem with hmem' | hlt
              · exact hpos hmem'
              · exact absurd hlt (lt_irrefl _)
            have hnd1 : (slugs st1.nodes).Nodup := by
              rwa [slugs_eq_of_shape_eq hok1.1]
            have hdr1 : DepRank st1.nodes rank := depRank_congr hok1.1 hdr
            obtain ⟨m1, hm1, hm1sh⟩ : ∃ m1, st1.nodes[i]? = some m1 ∧
                shapeF m1 = shapeF node := by
              have hsh := shape_getElem? hok1.1 i
              rw [hnode] at hsh
              cases hm1 : st1.nodes[i]? with
              | none => rw [hm1] at hsh; simp at hsh
              | some m1 =>
                rw [hm1] at hsh
                simp only [Option.map_some', Option.some.injEq] at hsh
                exact ⟨m1, rfl, hsh⟩
            have hm1slug : m1.exercise.slug = node.exercise.slug :=
              congrArg (fun t => t.1.slug) hm1sh
            have hlen1 : i < st1.nodes.length := (List.getElem?_eq_some_iff.mp hm1).1
            have hshset : shape (st1.nodes.set i
                { node with position :=
                    ⟨(anchorPos st1.nodes node.dependencies).x +
                        (node.exercise.position.getD ⟨0, 50⟩).x,
                      (anchorPos st1.nodes node.dependencies).y +
                        (node.exercise.position.getD ⟨0, 50⟩).y⟩ }) =
                shape st1.nodes :=
              shape_set hm1 (by
                simp only [shapeF] at hm1sh ⊢
                exact hm1sh.symm ▸ rfl)
            have hslset : slugs (st1.nodes.set i
                { node with position :=
                    ⟨(anchorPos st1.nodes node.dependencies).x +
                        (node.exercise.position.getD ⟨0, 50⟩).x,
                      (anchorPos st1.nodes node.dependencies).y +
                        (node.exercise.position.getD ⟨0, 50⟩).y⟩ }) =
                slugs st1.nodes := slugs_eq_of_shape_eq hshset
            have hsl1 : slugs st1.nodes = slugs st.nodes := slugs_eq_of_shape_eq hok1.1
            have hdepne : ∀ d ∈ node.dependencies, lastIdx? st1.nodes d ≠ some i := by
              intro d hd hsome
              obtain ⟨ni, hni, hnis⟩ := lastIdx?_some hsome
              rw [hm1] at hni
              cases hni
              have hdslug : d = node.exercise.slug := by rw [← hnis, hm1slug]
              have hres : (lastIdx? st.nodes d).isSome := by
                rw [← lastIdx?_congr hsl1, hsome]; rfl
              have hlt := hBdeps d hd hres
              rw [hdslug] at hlt
              exact absurd hlt (lt_irrefl _)
            constructor
            · intro k nk hk hks
              by_cases hki : i = k
              · subst hki
                rw [List.getElem?_set_self hlen1] at hk
                cases hk
                have hmg : ∀ d ∈ node.dependencies,
                    nodeMapGet (st1.nodes.set i
                      { node with position :=
                          ⟨(anchorPos st1.nodes node.dependencies).x +
                              (node.exercise.position.getD ⟨0, 50⟩).x,
                            (anchorPos st1.nodes node.dependencies).y +
                              (node.exercise.position.getD ⟨0, 50⟩).y⟩ }) d =
                    nodeMapGet st1.nodes d :=
                  fun d hd => nodeMapGet_set_ne hslset (hdepne d hd)
                refine ⟨⟨fun hempty => absurd hempty hdeps, fun _ => ?_⟩,
                  fun d hd hsome => ?_⟩
                · show _ = (⟨(anchorPos _ node.dependencies).x +
                      (node.exercise.position.getD ⟨0, 50⟩).x,
                    (anchorPos _ node.dependencies).y +
                      (node.exercise.position.getD ⟨0, 50⟩).y⟩ : Point)
                  rw [anchorPos_congr hmg]
                · rw [lastIdx?_congr hslset, lastIdx?_congr hsl1] at hsome
                  exact List.mem_insert_iff.mpr (Or.inr (hcov1 d hd hsome))
              · rw [List.getElem?_set_ne hki] at hk
                rcases List.mem_insert_iff.mp hks with hglue | hks'
                · exact absurd
                    (nodup_slug_unique hnd1 hm1 hk (hm1slug.trans hglue.symm)) hki
                · obtain ⟨hpok, hdpos⟩ := hinv1 k nk hk hks'
                  have hmg : ∀ d ∈ nk.dependencies,
                      nodeMapGet (st1.nodes.set i
                        { node with position :=
                            ⟨(anchorPos st1.nodes node.dependencies).x +
                                (node.exercise.position.getD ⟨0, 50⟩).x,
                              (anchorPos st1.nodes node.dependencies).y +
                                (node.exercise.position.getD ⟨0, 50⟩).y⟩ }) d =
                      nodeMapGet st1.nodes d := by
                    intro d hd
                    refine nodeMapGet_set_ne hslset fun hsome => ?_
                    obtain ⟨ni, hni, hnis⟩ := lastIdx?_some hsome
                    rw [hm1] at hni
                    cases hni
                    have hdpos' : d ∈ st1.positioned :=
                      hdpos d hd (by simp [hsome])
                    rw [← hnis, hm1slug] at hdpos'
                    exact hnotpos1 hdpos'
                  refine ⟨posOk_congr hmg hpok, fun d hd hsome => ?_⟩
                  rw [lastIdx?_congr hslset] at hsome
                  exact List.mem_insert_iff.mpr (Or.inr (hdpos d hd hsome))
            · intro s hs
              rcases List.mem_insert_iff.mp hs with rfl | hs'
              · exact Or.inr (Or.inl rfl)
              · rcases hbound1 s hs' with h1 | h1
                · exact Or.inl h1
                · exact Or.inr (Or.inr h1)
    refine ⟨hc, ?_⟩
    intro st deps
    induction deps generalizing st with
    | nil =>
      intro st' B _ _ _ h hinv
      rw [positionDeps_nil] at h
      cases h
      exact ⟨hinv, fun s hs => Or.inl hs⟩
    | cons d rest ihd =>
      intro st' B hnd hdr hB h hinv
      cases hidx : lastIdx? st.nodes d with
      | some j =>
        by_cases hpos : d ∈ st.positioned
        · rw [posDeps_skip hidx hpos] at h
          exact ihd st st' B hnd hdr
            (fun e he hsome => hB e (List.mem_cons_of_mem d he) hsome) h hinv
        · cases hcp : calculatePosition (n + 1) st j with
          | none =>
            rw [posDeps_go_none hidx hpos hcp] at h
            cases h
          | some st1 =>
            rw [posDeps_go_some hidx hpos hcp] at h
            obtain ⟨nj, hnj, hnjs⟩ := lastIdx?_some hidx
            obtain ⟨hinv1, hboundC⟩ := hc st j st1 nj hnd hdr hnj hcp hinv
            obtain ⟨hok1, -⟩ := (calcPos_ok (n + 1)).1 st j st1 hcp
            have hsl1 : slugs st1.nodes = slugs st.nodes := slugs_eq_of_shape_eq hok1.1
            have hnd1 : (slugs st1.nodes).Nodup := by rwa [hsl1]
            have hdr1 : DepRank st1.nodes rank := depRank_congr hok1.1 hdr
            have hB1 : ∀ e ∈ rest, (lastIdx? st1.nodes e).isSome → rank e < B := by
              intro e he hsome
              rw [lastIdx?_congr hsl1] at hsome
              exact hB e (List.mem_cons_of_mem d he) hsome
            obtain ⟨hinv2, hbound2⟩ := ihd st1 st' B hnd1 hdr1 hB1 h hinv1
            refine ⟨hinv2, fun s hs => ?_⟩
            rcases hbound2 s hs with hs1 | hlt
            · rcases hboundC s hs1 with hs0 | hs0 | hs0
              · exact Or.inl hs0
              · refine Or.inr ?_
                rw [hs0, hnjs]
                exact hB d (List.mem_cons_self d rest) (by simp [hidx])
              · refine Or.inr (lt_trans ?_
                  (hB d (List.mem_cons_self d rest) (by simp [hidx])))
                rwa [hnjs] at hs0
            · exact Or.inr hlt
      | none =>
        rw [posDeps_unres hidx] at h
        exact ihd st st' B hnd hdr
          (fun e he hsome => hB e (List.mem_cons_of_mem d he) hsome) h hinv

theorem calcAll_layoutInv (rank : String → Nat) (fuel : Nat) (l : List Nat) :
    ∀ st st' : LayoutState, (slugs st.nodes).Nodup → DepRank st.nodes rank →
      calcAll fuel st l = some st' → LayoutInv st → LayoutInv st' := by
  induction l with
  | nil =>
    intro st st' _ _ h hinv
    simp only [calcAll] at h
    cases h
    exact hinv
  | cons i rest ih =>
    intro st st' hnd hdr h hinv
    cases hcp : calculatePosition fuel st i with
    | none => simp [calcAll, hcp] at h
    | some st1 =>
      simp only [calcAll, hcp] at h
      obtain ⟨hok1, -⟩ := (calcPos_ok fuel).1 st i st1 hcp
      have hnd1 : (slugs st1.nodes).Nodup := by rwa [slugs_eq_of_shape_eq hok1.1]
      have hdr1 : DepRank st1.nodes rank := depRank_congr hok1.1 hdr
      have hinv1 : LayoutInv st1 := by
        cases hnode : st.nodes[i]? with
        | some node =>
          exact ((calcPos_layoutInv rank fuel).1 st i st1 node hnd hdr hnode hcp hinv).1
        | none =>
          cases fuel with
          | zero => rw [calculatePosition_zero] at hcp; cases hcp
          | succ n =>
            rw [calcPos_oob hnode] at hcp
            cases hcp
            exact hinv
      exact ih st1 st' hnd1 hdr1 h hinv1

theorem calcAll_positioned {fuel : Nat} {st stF : LayoutState}
    (hca : calcAll fuel st (List.range st.nodes.length) = some stF) :
    ∀ (k : Nat) (m : SkillTreeNode), stF.nodes[k]? = some m →
      m.exercise.slug ∈ stF.positioned := by
  obtain ⟨hok, hcov⟩ := calcAll_ok fuel _ _ _ hca
  intro k m hk
  have hsh := shape_getElem? hok.1 k
  rw [hk] at hsh
  cases hm0 : st.nodes[k]? with
  | none => rw [hm0] at hsh; simp at hsh
  | some n0 =>
    rw [hm0] at hsh
    simp only [Option.map_some', Option.some.injEq] at hsh
    have hslug : m.exercise.slug = n0.exercise.slug :=
      congrArg (fun t => t.1.slug) hsh
    have hkr : k ∈ List.range st.nodes.length := by
      simpa [List.mem_range] using (List.getElem?_eq_some_iff.mp hm0).1
    rw [hslug]
    exact hcov k hkr n0 hm0

/-- Everything about a node except its (mutable by the second pass)
`dependents`. -/
def projF (n : SkillTreeNode) : Exercise × Path × Point × List String :=
  (n.exercise, n.path, n.position, n.dependencies)

theorem addDependent_proj (l : List SkillTreeNode) (d s : String) (k : Nat) :
    ((addDependent l d s)[k]?).map projF = (l[k]?).map projF := by
  induction l generalizing k with
  | nil => rfl
  | cons n rest ih =>
    by_cases h : n.exercise.slug = d
    · simp only [addDependent, if_pos h]
      cases k with
      | zero => simp [projF]
      | succ k' => simp
    · simp only [addDependent, if_neg h]
      cases k with
      | zero => simp
      | succ k' => simpa using ih k'

theorem foldAdd_proj (ds : List String) (s : String) :
    ∀ (l : List SkillTreeNode) (k : Nat),
      ((ds.foldl (fun acc2 d => addDependent acc2 d s) l)[k]?).map projF =
      (l[k]?).map projF := by
  induction ds with
  | nil => intro l k; rfl
  | cons d rest ih =>
    intro l k
    rw [List.foldl_cons, ih, addDependent_proj]

theorem computeDependents_proj (nodes : List SkillTreeNode) (k : Nat) :
    ((computeDependents nodes)[k]?).map projF = (nodes[k]?).map projF := by
  suffices hgen : ∀ (P : List (String × List String)) (acc : List SkillTreeNode)
      (k : Nat),
      ((P.foldl (fun acc sd =>
        sd.2.foldl (fun acc2 depSlug => addDependent acc2 depSlug sd.1) acc)
        acc)[k]?).map projF = (acc[k]?).map projF by
    exact hgen _ nodes k
  intro P
  induction P with
  | nil => intro acc k; rfl
  | cons p rest ih =>
    intro acc k
    rw [List.foldl_cons, ih, foldAdd_proj]

/-- A rank function decreasing along resolvable dependency references of the
raw exercises: the acyclicity hypothesis at the input level. -/
def ExercisesAcyclic (exercises : List Exercise) (rank : String → Nat) : Prop :=
  ∀ ex ∈ exercises, ∀ d ∈ ex.dependencies.getD [],
    d ∈ exercises.map Exercise.slug → rank d < rank ex.slug

theorem depRank_of_acyclic (exercises : List Exercise) (paths : List Path)
    (rank : String → Nat) (hac : ExercisesAcyclic exercises rank) :
    DepRank (computeDependents (exercises.map (initialNode paths))) rank := by
  intro k n hk d hd hsome
  have hproj := computeDependents_proj (exercises.map (initialNode paths)) k
  rw [hk, List.getElem?_map] at hproj
  cases hex : exercises[k]? with
  | none => rw [hex] at hproj; simp at hproj
  | some ex =>
    rw [hex] at hproj
    simp only [Option.map_some', Option.some.injEq] at hproj
    have hslug : n.exercise.slug = ex.slug := by
      have h2 := congrArg (fun t => t.1.slug) hproj
      simpa [projF, initialNode] using h2
    have hdeps : n.dependencies = ex.dependencies.getD [] := by
      have h2 := congrArg (fun t => t.2.2.2) hproj
      simpa [projF, initialNode] using h2
    have hmem : d ∈ slugs (computeDependents (exercises.map (initialNode paths))) :=
      (lastIdx?_isSome_iff _ _).mp hsome
    rw [slugs_computeDependents, slugs_initialNodes] at hmem
    rw [hslug]
    exact hac ex (List.mem_iff_getElem?.mpr ⟨k, hex⟩) d (hdeps ▸ hd) hmem

/-- C1 (amended): for a dependent node the resolver adds the node's offset
(default `(0,50)`) to the anchor-scan result, which starts at `(0,0)` and
takes a dependency's position only when its `x + y` strictly exceeds the
running best — so when every resolvable dependency has `x + y ≤ 0`, or no
dependency resolves, the base is `(0,0)` rather than any dependency's
position.  Stated for inputs with unique slugs and acyclic resolvable
dependencies (a dependency cycle makes the build diverge instead). -/
theorem resolved_dependent_position (fuel : Nat) (exercises : List Exercise)
    (paths : List Path) (out : List SkillTreeNode) (rank : String → Nat)
    (hnd : (exercises.map Exercise.slug).Nodup)
    (hac : ExercisesAcyclic exercises rank)
    (h : createSkillTreeData fuel exercises paths = some out) :
    ∀ node ∈ out, node.dependencies ≠ [] →
      node.position =
        ⟨(anchorPos out node.dependencies).x +
            (node.exercise.position.getD ⟨0, 50⟩).x,
          (anchorPos out node.dependencies).y +
            (node.exercise.position.getD ⟨0, 50⟩).y⟩ := by
  obtain ⟨stF, hca, hout⟩ := createSkillTreeData_decomp fuel exercises paths out h
  have hnd1 : (slugs (computeDependents (exercises.map (initialNode paths)))).Nodup := by
    rwa [slugs_computeDependents, slugs_initialNodes]
  have hdr1 : DepRank (computeDependents (exercises.map (initialNode paths))) rank :=
    depRank_of_acyclic exercises paths rank hac
  have hinv0 : LayoutInv
      { nodes := computeDependents (exercises.map (initialNode paths)),
        positioned := [] } :=
    fun _ _ _ hmem => absurd hmem (List.not_mem_nil _)
  have hinvF : LayoutInv stF :=
    calcAll_layoutInv rank fuel _ _ stF hnd1 hdr1 hca hinv0
  subst hout
  intro node hmem hdeps
  obtain ⟨k, hk⟩ := List.mem_iff_getElem?.mp hmem
  have hposd : node.exercise.slug ∈ stF.positioned :=
    calcAll_positioned hca k node hk
  exact ((hinvF k node hk hposd).1).2 hdeps

/-! ### Concrete layout runs -/

/-- A root exercise placed at negative coordinates. -/
def cexA : Exercise := ⟨"a", "active", "A", "", none, none, some ⟨-10, 0⟩, none, none⟩

/-- An exercise depending on `"a"`, with no explicit offset. -/
def cexB : Exercise := ⟨"b", "active", "B", "", none, some ["a"], none, none, none⟩

/-- The built node for `cexA`. -/
def cexNodeA : SkillTreeNode := ⟨cexA, fallbackPath, ⟨-10, 0⟩, [], ["b"]⟩

/-- The built node for `cexB`. -/
def cexNodeB : SkillTreeNode := ⟨cexB, fallbackPath, ⟨0, 50⟩, ["a"], []⟩

theorem cex_build :
    createSkillTreeData 3 [cexA, cexB] [] = some [cexNodeA, cexNodeB] := by
  simp +decide [createSkillTreeData, resolveLayout, computeDependents, addDependent,
    initialNode, mapGet, fallbackPath, calcAll, calculatePosition, positionDepsAux,
    lastIdx?, anchorPos, nodeMapGet, List.insert, cexA, cexB, cexNodeA, cexNodeB]

/-- C1 counterexample: node `"b"` has the single (resolvable) dependency
`"a"`, which therefore is its maximum-`(x+y)` dependency and sits at
`(-10, 0)`; yet `"b"` resolves to `(0, 50)`, not `(-10, 0) + (0, 50)`,
because the anchor scan starts from `(0, 0)` and `-10 + 0 > 0` fails. -/
theorem anchor_dependency_counterexample :
    createSkillTreeData 3 [cexA, cexB] [] = some [cexNodeA, cexNodeB] ∧
    cexNodeB.dependencies = ["a"] ∧
    cexNodeA.exercise.slug = "a" ∧
    cexNodeA.position = ⟨-10, 0⟩ ∧
    cexNodeB.exercise.position = none ∧
    cexNodeB.position ≠ ⟨-10, 50⟩ :=
  ⟨cex_build, rfl, rfl, rfl, rfl, by decide⟩

/-- Rank function for the acyclic two-node example. -/
def cexRank : String → Nat := fun s => if s = "b" then 1 else 0

/-- Witness for C1 (amended) at the concrete two-node input. -/
theorem resolved_dependent_position_witness :
    createSkillTreeData 3 [cexA, cexB] [] = some [cexNodeA, cexNodeB] ∧
    cexNodeB.position =
      ⟨(anchorPos [cexNodeA, cexNodeB] cexNodeB.dependencies).x +
          (cexNodeB.exercise.position.getD ⟨0, 50⟩).x,
        (anchorPos [cexNodeA, cexNodeB] cexNodeB.dependencies).y +
          (cexNodeB.exercise.position.getD ⟨0, 50⟩).y⟩ :=
  ⟨cex_build,
    resolved_dependent_position 3 [cexA, cexB] [] [cexNodeA, cexNodeB] cexRank
      (by decide) (by unfold ExercisesAcyclic; decide) cex_build cexNodeB
      (by simp) (by decide)⟩

/-- The worked example of the spec: `root`, `mid`, `leaf`. -/
def exRoot : Exercise := ⟨"root", "active", "Root", "", none, none, some ⟨0, 0⟩, none, none⟩

def exMid : Exercise :=
  ⟨"mid", "active", "Mid", "", none, some ["root"], some ⟨0, 50⟩, none, none⟩

def exLeaf : Exercise :=
  ⟨"leaf", "active", "Leaf", "", none, some ["mid"], some ⟨0, 50⟩, none, none⟩

def rootNode : SkillTreeNode := ⟨exRoot, fallbackPath, ⟨0, 0⟩, [], ["mid"]⟩

def midNode : SkillTreeNode := ⟨exMid, fallbackPath, ⟨0, 50⟩, ["root"], ["leaf"]⟩

def leafNode : SkillTreeNode := ⟨exLeaf, fallbackPath, ⟨0, 100⟩, ["mid"], []⟩

theorem example_build :
    createSkillTreeData 4 [exRoot, exMid, exLeaf] [] =
      some [rootNode, midNode, leafNode] := by
  simp +decide [createSkillTreeData, resolveLayout, computeDependents, addDependent,
    initialNode, mapGet, fallbackPath, calcAll, calculatePosition, positionDepsAux,
    lastIdx?, anchorPos, nodeMapGet, List.insert, exRoot, exMid, exLeaf,
    rootNode, midNode, leafNode]
  norm_num

/-- Witness for C5 at the spec's worked example. -/
theorem resolved_root_position_witness :
    createSkillTreeData 4 [exRoot, exMid, exLeaf] [] =
      some [rootNode, midNode, leafNode] ∧
    rootNode.position = rootNode.exercise.position.getD ⟨0, 0⟩ :=
  ⟨example_build,
    resolved_root_position 4 [exRoot, exMid, exLeaf] [] [rootNode, midNode, leafNode]
      (by decide) example_build rootNode (by simp) rfl⟩

/-! ### The dependents pass, exactly -/

/-- The dependents the second pass accumulates for slug `s` from the pair
list `(slug, dependencies)`: one entry per occurrence of `s` in a node's
dependency list, in iteration order. -/
def dependentsOf (pairs : List (String × List String)) (s : String) : List String :=
  pairs.flatMap fun pr => (pr.2.filter fun d => d = s).map fun _ => pr.1

theorem mem_dependentsOf {pairs : List (String × List String)} {s t : String} :
    t ∈ dependentsOf pairs s ↔ ∃ pr ∈ pairs, pr.1 = t ∧ s ∈ pr.2 := by
  simp only [dependentsOf, List.mem_flatMap, List.mem_map, List.mem_filter]
  constructor
  · rintro ⟨pr, hpr, d, ⟨hd, hds⟩, rfl⟩
    have hds' : d = s := by simpa using hds
    exact ⟨pr, hpr, rfl, hds' ▸ hd⟩
  · rintro ⟨pr, hpr, rfl, hs⟩
    exact ⟨pr, hpr, s, ⟨hs, by simp⟩, rfl⟩

theorem addDependent_getElem?_nodup {l : List SkillTreeNode} (d s : String)
    (hnd : (slugs l).Nodup) :
    ∀ (k : Nat) (n : SkillTreeNode), l[k]? = some n →
      (addDependent l d s)[k]? =
        some (if n.exercise.slug = d then
          { n with dependents := n.dependents ++ [s] } else n) := by
  induction l with
  | nil => intro k n hk; simp at hk
  | cons x rest ih =>
    intro k n hk
    have hndt : (slugs rest).Nodup := by
      have h2 : (x.exercise.slug :: slugs rest).Nodup := by simpa [slugs] using hnd
      exact (List.nodup_cons.mp h2).2
    by_cases hx : x.exercise.slug = d
    · simp only [addDependent, if_pos hx]
      cases k with
      | zero =>
        simp only [List.getElem?_cons_zero, Option.some.injEq] at hk
        subst hk
        simp [hx]
      | succ k' =>
        simp only [List.getElem?_cons_succ] at hk ⊢
        have hns : n.exercise.slug ≠ d := by
          intro hnd2
          have hxm : x.exercise.slug ∈ slugs rest := by
            rw [hx, ← hnd2]
            exact List.mem_map_of_mem _ (List.mem_iff_getElem?.mpr ⟨k', hk⟩)
          have : ¬ x.exercise.slug ∈ slugs rest := by
            have h2 := hnd
            simp only [slugs, List.map_cons, List.nodup_cons] at h2
            exact h2.1
          exact this hxm
        rw [hk, if_neg hns]
    · simp only [addDependent, if_neg hx]
      cases k with
      | zero =>
        simp only [List.getElem?_cons_zero, Option.some.injEq] at hk
        subst hk
        simp [hx]
      | succ k' =>
        simp only [List.getElem?_cons_succ] at hk ⊢
        exact ih hndt k' n hk

theorem foldAdd_getElem?_nodup {mdeps : List String} {ms : String} :
    ∀ {l : List SkillTreeNode}, (slugs l).Nodup →
    ∀ (k : Nat) (n : SkillTreeNode), l[k]? = some n →
      (mdeps.foldl (fun acc2 d => addDependent acc2 d ms) l)[k]? =
        some { n with dependents :=
          n.dependents ++ (mdeps.filter fun d => d = n.exercise.slug).map fun _ => ms } := by
  induction mdeps with
  | nil =>
    intro l _ k n hk
    simpa using hk
  | cons d rest ih =>
    intro l hnd k n hk
    rw [List.foldl_cons]
    have hnd' : (slugs (addDependent l d ms)).Nodup := by
      rwa [slugs_addDependent]
    have hk' := addDependent_getElem?_nodup d ms hnd k n hk
    by_cases hx : n.exercise.slug = d
    · rw [if_pos hx] at hk'
      have := ih hnd' k _ hk'
      rw [this]
      simp only [List.filter_cons]
      rw [show (decide (d = n.exercise.slug)) = true by simp [hx]]
      simp [List.append_assoc]
    · rw [if_neg hx] at hk'
      have := ih hnd' k n hk'
      rw [this]
      simp only [List.filter_cons]
      rw [show (decide (d = n.exercise.slug)) = false by simp [Ne.symm hx]]
      simp

theorem computeDependents_getElem?_nodup {nodes : List SkillTreeNode}
    (hnd : (slugs nodes).Nodup) :
    ∀ (k : Nat) (n : SkillTreeNode), nodes[k]? = some n →
      (computeDependents nodes)[k]? =
        some { n with dependents := n.dependents ++
          (dependentsOf (nodes.map (fun m => (m.exercise.slug, m.dependencies)))
            n.exercise.slug) } := by
  unfold computeDependents
  suffices hgen : ∀ (P : List (String × List String)) (acc : List SkillTreeNode),
      (slugs acc).Nodup → ∀ (k : Nat) (n : SkillTreeNode), acc[k]? = some n →
      (P.foldl (fun acc sd =>
        sd.2.foldl (fun acc2 depSlug => addDependent acc2 depSlug sd.1) acc)
        acc)[k]? =
      some { n with dependents := n.dependents ++ dependentsOf P n.exercise.slug } by
    intro k n hk
    exact hgen _ nodes hnd k n hk
  intro P
  induction P with
  | nil =>
    intro acc _ k n hk
    simp only [List.foldl_nil, dependentsOf, List.flatMap_nil, List.append_nil]
    simpa using hk
  | cons p rest ih =>
    intro acc hnd' k n hk
    rw [List.foldl_cons]
    have hk1 := @foldAdd_getElem?_nodup p.2 p.1 _ hnd' k n hk
    have hnd1 : (slugs (p.2.foldl (fun acc2 d => addDependent acc2 d p.1) acc)).Nodup := by
      rwa [slugs_foldAdd]
    have := ih _ hnd1 k _ hk1
    rw [this]
    simp only [dependentsOf, List.flatMap_cons, List.append_assoc]

/-- Index-wise correspondence between the build output and the input
exercises, including the exact dependents list. -/
theorem build_corresponds (fuel : Nat) (exercises : List Exercise)
    (paths : List Path) (out : List SkillTreeNode)
    (hnd : (exercises.map Exercise.slug).Nodup)
    (h : createSkillTreeData fuel exercises paths = some out) :
    out.length = exercises.length ∧
    ∀ (k : Nat) (node : SkillTreeNode), out[k]? = some node →
      ∃ ex, exercises[k]? = some ex ∧ node.exercise = ex ∧
        node.dependencies = ex.dependencies.getD [] ∧
        node.dependents = dependentsOf
          (exercises.map fun e => (e.slug, e.dependencies.getD [])) ex.slug := by
  obtain ⟨stF, hca, hout⟩ := createSkillTreeData_decomp fuel exercises paths out h
  obtain ⟨hok, -⟩ := calcAll_ok fuel _ _ _ hca
  have hnd0 : (slugs (exercises.map (initialNode paths))).Nodup := by
    rwa [slugs_initialNodes]
  have hpairs : ((exercises.map (initialNode paths)).map
      fun m => (m.exercise.slug, m.dependencies)) =
      exercises.map fun e => (e.slug, e.dependencies.getD []) := by
    rw [List.map_map]
    rfl
  have hlen : out.length = exercises.length := by
    have h1 : (shape stF.nodes).length =
        (shape (computeDependents (exercises.map (initialNode paths)))).length :=
      congrArg List.length hok.1
    simp only [shape, List.length_map] at h1
    have h2 : (slugs (computeDependents (exercises.map (initialNode paths)))).length =
        (slugs (exercises.map (initialNode paths))).length := by
      rw [slugs_computeDependents]
    simp only [slugs, List.length_map] at h2
    rw [hout]
    simp only [h1, h2, List.length_map]
  refine ⟨hlen, fun k node hk => ?_⟩
  rw [hout] at hk
  have hsh := shape_getElem? hok.1 k
  rw [hk] at hsh
  cases hm1 : (computeDependents (exercises.map (initialNode paths)))[k]? with
  | none => rw [hm1] at hsh; simp at hsh
  | some n1 =>
    rw [hm1] at hsh
    simp only [Option.map_some', Option.some.injEq] at hsh
    cases hm0 : (exercises.map (initialNode paths))[k]? with
    | none =>
      exfalso
      rw [List.getElem?_eq_none_iff] at hm0
      have := (List.getElem?_eq_some_iff.mp hm1).1
      have hlen2 : (computeDependents (exercises.map (initialNode paths))).length =
          (exercises.map (initialNode paths)).length := by
        have h2 := congrArg List.length (slugs_computeDependents
          (exercises.map (initialNode paths)))
        simpa [slugs, List.length_map] using h2
      omega
    | some n0 =>
      have hn1 := computeDependents_getElem?_nodup hnd0 k n0 hm0
      rw [hm1] at hn1
      cases hn1
      rw [List.getElem?_map] at hm0
      cases hex : exercises[k]? with
      | none => rw [hex] at hm0; cases hm0
      | some ex =>
        rw [hex] at hm0
        simp only [Option.map_some', Option.some.injEq] at hm0
        subst hm0
        refine ⟨ex, rfl, ?_, ?_, ?_⟩
        · have := congrArg (fun t => t.1) hsh
          simpa [shapeF, initialNode] using this
        · have := congrArg (fun t => t.2.2.1) hsh
          simpa [shapeF, initialNode] using this
        · have h3 := congrArg (fun t => t.2.2.2) hsh
          simp only [shapeF] at h3
          rw [h3]
          simp [initialNode, hpairs]

/-- C6: in every successfully built graph over duplicate-free slugs, a node's
`dependents` holds exactly the slugs of the nodes whose `dependencies`
contain its slug. -/
theorem dependents_symmetric (fuel : Nat) (exercises : List Exercise)
    (paths : List Path) (out : List SkillTreeNode)
    (hnd : (exercises.map Exercise.slug).Nodup)
    (h : createSkillTreeData fuel exercises paths = some out) :
    ∀ node ∈ out, ∀ s : String,
      s ∈ node.dependents ↔
      ∃ m ∈ out, m.exercise.slug = s ∧ node.exercise.slug ∈ m.dependencies := by
  obtain ⟨hlen, hcorr⟩ := build_corresponds fuel exercises paths out hnd h
  intro node hmem s
  obtain ⟨k, hk⟩ := List.mem_iff_getElem?.mp hmem
  obtain ⟨ex, hex, hexe, hdeps, hdepnts⟩ := hcorr k node hk
  rw [hdepnts, mem_dependentsOf]
  constructor
  · rintro ⟨pr, hpr, rfl, hin⟩
    rw [List.mem_iff_getElem?] at hpr
    obtain ⟨j, hj⟩ := hpr
    rw [List.getElem?_map] at hj
    cases hexj : exercises[j]? with
    | none => rw [hexj] at hj; cases hj
    | some exj =>
      rw [hexj] at hj
      simp only [Option.map_some', Option.some.injEq] at hj
      have hjlen : j < out.length := by
        rw [hlen]
        exact (List.getElem?_eq_some_iff.mp hexj).1
      obtain ⟨m, hm⟩ : ∃ m, out[j]? = some m :=
        ⟨_, List.getElem?_eq_getElem hjlen⟩
      obtain ⟨ex', hex', hme, hmdeps, -⟩ := hcorr j m hm
      rw [hexj] at hex'
      cases hex'
      have hj1 : pr.1 = exj.slug := by rw [← hj]
      have hj2 : pr.2 = exj.dependencies.getD [] := by rw [← hj]
      rw [hj2] at hin
      refine ⟨m, List.mem_iff_getElem?.mpr ⟨j, hm⟩, ?_, ?_⟩
      · rw [hj1, hme]
      · rw [hexe, hmdeps]
        exact hin
  · rintro ⟨m, hmmem, hms, hmdep⟩
    obtain ⟨j, hj⟩ := List.mem_iff_getElem?.mp hmmem
    obtain ⟨exj, hexj, hme, hmdeps, -⟩ := hcorr j m hj
    refine ⟨(exj.slug, exj.dependencies.getD []), ?_, ?_, ?_⟩
    · rw [List.mem_iff_getElem?]
      exact ⟨j, by rw [List.getElem?_map, hexj]; rfl⟩
    · rw [← hms, hme]
    · have hslug : node.exercise.slug = ex.slug := by rw [hexe]
      rw [← hslug, ← hmdeps]
      exact hmdep

/-- Witness for C6 at the spec's worked example. -/
theorem dependents_symmetric_witness :
    createSkillTreeData 4 [exRoot, exMid, exLeaf] [] =
      some [rootNode, midNode, leafNode] ∧
    ("mid" ∈ rootNode.dependents ↔
      ∃ m ∈ [rootNode, midNode, leafNode], m.exercise.slug = "mid" ∧
        rootNode.exercise.slug ∈ m.dependencies) :=
  ⟨example_build,
    dependents_symmetric 4 [exRoot, exMid, exLeaf] [] [rootNode, midNode, leafNode]
      (by decide) example_build rootNode (by simp) "mid"⟩

/-! ## Transitive drag propagation (`getAllTransitiveDependents`,
`calculateDraggedPositions`) -/

/-- JS `Set.add` with insertion order: append when absent. -/
def setAdd (l : List String) (s : String) : List String :=
  if s ∈ l then l else l ++ [s]

/-- The dependent scan of `getAllTransitiveDependents`:
`allNodes.filter(node => node.dependencies.includes(targetSlug))
         .map(node => node.exercise.slug)`. -/
def directDependentsOf (allNodes : List SkillTreeNode) (targetSlug : String) :
    List String :=
  (allNodes.filter fun node => node.dependencies.contains targetSlug).map
    fun node => node.exercise.slug

/-- The `forEach` loop of `getAllTransitiveDependents`, parameterized by the
recursive call; it threads the (JS-shared, mutated in place) visited set and
folds every transitive result into the accumulated dependent set. -/
def gatdFold (recur : String → List String → Option (List String × List String)) :
    List String → List String × List String → Option (List String × List String)
  | [], acc => some acc
  | depSlug :: rest, (allDependents, visited) =>
    match recur depSlug visited with
    | none => none
    | some (transitiveDependents, visited') =>
      gatdFold recur rest (transitiveDependents.foldl setAdd allDependents, visited')

/-- `getAllTransitiveDependents` from the drag utilities, fuel-indexed,
returning the collected dependent slugs and the final visited set. -/
def getAllTransitiveDependentsF (allNodes : List SkillTreeNode) :
    Nat → String → List String → Option (List String × List String)
  | 0 => fun _ _ => none
  | fuel + 1 => fun targetSlug visited =>
    if targetSlug ∈ visited then some ([], visited)
    else
      let visited1 := visited ++ [targetSlug]
      let directDependents := directDependentsOf allNodes targetSlug
      gatdFold (getAllTransitiveDependentsF allNodes fuel) directDependents
        (directDependents.foldl setAdd [], visited1)

/-- The exported entry point: fresh visited set, only the dependent list. -/
def getAllTransitiveDependents (fuel : Nat) (targetSlug : String)
    (allNodes : List SkillTreeNode) : Option (List String) :=
  (getAllTransitiveDependentsF allNodes fuel targetSlug []).map Prod.fst

/-- JS `record[k] = v`: overwrite in place, else append. -/
def recordSet (m : List (String × Point)) (k : String) (v : Point) :
    List (String × Point) :=
  if m.any fun kv => kv.1 = k then
    m.map fun kv => if kv.1 = k then (k, v) else kv
  else m ++ [(k, v)]

/-- JS `record[k]` read. -/
def recordGet (m : List (String × Point)) (k : String) : Option Point :=
  (m.find? fun kv => kv.1 = k).map Prod.snd

/-- `calculateDraggedPositions` from the drag utilities, fuel-indexed for the
transitive walk. -/
def calculateDraggedPositions (fuel : Nat) (draggedNodeSlug : String)
    (newPosition : Point) (currentNodes : List SkillTreeNode) :
    Option (List (String × Point)) :=
  match currentNodes.find? fun n => n.exercise.slug = draggedNodeSlug with
  | none => some []
  | some draggedNode =>
    let offset : Point := ⟨newPosition.x - draggedNode.position.x,
                           newPosition.y - draggedNode.position.y⟩
    match getAllTransitiveDependents fuel draggedNodeSlug currentNodes with
    | none => none
    | some dependentSlugs =>
      let dependentNodes := currentNodes.filter fun node =>
        dependentSlugs.contains node.exercise.slug
      some (dependentNodes.foldl
        (fun acc depNode =>
          recordSet acc depNode.exercise.slug
            ⟨depNode.position.x + offset.x, depNode.position.y + offset.y⟩)
        [(draggedNodeSlug, newPosition)])

theorem gatdF_zero (allNodes : List SkillTreeNode) (t : String) (visited : List String) :
    getAllTransitiveDependentsF allNodes 0 t visited = none := rfl

theorem gatdF_succ (allNodes : List SkillTreeNode) (fuel : Nat) (t : String)
    (visited : List String) :
    getAllTransitiveDependentsF allNodes (fuel + 1) t visited =
      if t ∈ visited then some ([], visited)
      else
        gatdFold (getAllTransitiveDependentsF allNodes fuel)
          (directDependentsOf allNodes t)
          ((directDependentsOf allNodes t).foldl setAdd [], visited ++ [t]) := rfl

theorem mem_setAdd {l : List String} {s x : String} :
    x ∈ setAdd l s ↔ x ∈ l ∨ x = s := by
  unfold setAdd
  by_cases h : s ∈ l
  · simp only [if_pos h]
    constructor
    · exact Or.inl
    · rintro (hx | rfl)
      · exact hx
      · exact h
  · simp [if_neg h]

theorem mem_foldl_setAdd {x : String} :
    ∀ (l init : List String), x ∈ l.foldl setAdd init ↔ x ∈ init ∨ x ∈ l := by
  intro l
  induction l with
  | nil => intro init; simp
  | cons s rest ih =>
    intro init
    rw [List.foldl_cons, ih, mem_setAdd]
    constructor
    · rintro ((hx | rfl) | hx)
      · exact Or.inl hx
      · exact Or.inr (List.mem_cons_self _ _)
      · exact Or.inr (List.mem_cons_of_mem _ hx)
    · rintro (hx | hx)
      · exact Or.inl (Or.inl hx)
      · rcases List.mem_cons.mp hx with rfl | hx'
        · exact Or.inl (Or.inr rfl)
        · exact Or.inr hx'

/-- The one-step "depends on me" relation read off the node array. -/
def DirectDep (allNodes : List SkillTreeNode) (t s : String) : Prop :=
  s ∈ directDependentsOf allNodes t

theorem directDependentsOf_subset_slugs {allNodes : List SkillTreeNode}
    {t s : String} (h : s ∈ directDependentsOf allNodes t) : s ∈ slugs allNodes := by
  simp only [directDependentsOf, List.mem_map, List.mem_filter] at h
  obtain ⟨n, ⟨hn, -⟩, rfl⟩ := h
  exact List.mem_map_of_mem _ hn

/-- Invariant of the fuel-indexed transitive walk: the visited set grows,
collected dependents are visited, the target gets visited, and every slug
expanded during the call has all its direct dependents collected. -/
theorem gatdF_inv (allNodes : List SkillTreeNode) :
    ∀ (fuel : Nat) (t : String) (visited res vis' : List String),
      getAllTransitiveDependentsF allNodes fuel t visited = some (res, vis') →
      (∀ x ∈ visited, x ∈ vis') ∧ (∀ x ∈ res, x ∈ vis') ∧ t ∈ vis' ∧
      (∀ x ∈ vis', x ∉ visited →
        ∀ s ∈ directDependentsOf allNodes x, s ∈ res) := by
  intro fuel
  induction fuel with
  | zero =>
    intro t visited res vis' h
    rw [gatdF_zero] at h
    cases h
  | succ n ih =>
    intro t visited res vis' h
    rw [gatdF_succ] at h
    by_cases ht : t ∈ visited
    · rw [if_pos ht] at h
      cases h
      exact ⟨fun x hx => hx, fun x hx => absurd hx (List.not_mem_nil x), ht,
        fun x hx hx2 => absurd hx hx2⟩
    · rw [if_neg ht] at h
      have hfold : ∀ (deps acc vis : List String) (res vis' : List String),
          (∀ d ∈ deps, d ∈ directDependentsOf allNodes t) →
          gatdFold (getAllTransitiveDependentsF allNodes n) deps (acc, vis) =
            some (res, vis') →
          (∀ x ∈ vis, x ∈ vis') ∧ (∀ d ∈ deps, d ∈ vis') ∧
          (∀ x ∈ acc, x ∈ res) ∧ (∀ x ∈ res, x ∈ vis' ∨ x ∈ acc) ∧
          (∀ x ∈ vis', x ∉ vis →
            ∀ s ∈ directDependentsOf allNodes x, s ∈ res) := by
        intro deps
        induction deps with
        | nil =>
          intro acc vis res vis' _ hf
          simp only [gatdFold] at hf
          cases hf
          exact ⟨fun x hx => hx, fun d hd => absurd hd (List.not_mem_nil d),
            fun x hx => hx, fun x hx => Or.inr hx,
            fun x hx hx2 => absurd hx hx2⟩
        | cons d rest ihd =>
          intro acc vis res vis' hdd hf
          simp only [gatdFold] at hf
          cases hrec : getAllTransitiveDependentsF allNodes n d vis with
          | none => rw [hrec] at hf; cases hf
          | some p =>
            obtain ⟨resd, visd⟩ := p
            rw [hrec] at hf
            obtain ⟨hg1, hg2, hg3, hg4⟩ := ih d vis resd visd hrec
            obtain ⟨hf1, hf2, hf3, hf4, hf5⟩ := ihd _ visd res vis'
              (fun e he => hdd e (List.mem_cons_of_mem d he)) hf
            refine ⟨fun x hx => hf1 x (hg1 x hx), ?_, ?_, ?_, ?_⟩
            · intro e he
              rcases List.mem_cons.mp he with rfl | he'
              · exact hf1 e (hg3)
              · exact hf2 e he'
            · intro x hx
              exact hf3 x ((mem_foldl_setAdd resd acc).mpr (Or.inl hx))
            · intro x hx
              rcases hf4 x hx with hx' | hx'
              · exact Or.inl hx'
              · rcases (mem_foldl_setAdd resd acc).mp hx' with hx'' | hx''
                · exact Or.inr hx''
                · exact Or.inl (hf1 x (hg2 x hx''))
            · intro x hx hxvis s hs
              by_cases hxd : x ∈ visd
              · by_cases hxv : x ∈ vis
                · exact absurd hxv hxvis
                · exact hf3 s ((mem_foldl_setAdd resd acc).mpr
                    (Or.inr (hg4 x hxd hxv s hs)))
              · exact hf5 x hx hxd s hs
      obtain ⟨hf1, hf2, hf3, hf4, hf5⟩ := hfold (directDependentsOf allNodes t)
        ((directDependentsOf allNodes t).foldl setAdd []) (visited ++ [t])
        res vis' (fun d hd => hd) h
      have hviss : ∀ x ∈ visited, x ∈ vis' := by
        intro x hx
        exact hf1 x (by simp [hx])
      have htvis : t ∈ vis' := hf1 t (by simp)
      refine ⟨hviss, ?_, htvis, ?_⟩
      · intro x hx
        rcases hf4 x hx with hx' | hx'
        · exact hx'
        · rcases (mem_foldl_setAdd _ _).mp hx' with hx'' | hx''
          · exact absurd hx'' (List.not_mem_nil x)
          · exact hf2 x hx''
      · intro x hx hxvisited s hs
        by_cases hxv1 : x ∈ visited ++ [t]
        · have hxt : x = t := by
            rcases List.mem_append.mp hxv1 with hx1 | hx1
            · exact absurd hx1 hxvisited
            · simpa using hx1
          subst hxt
          exact hf3 s ((mem_foldl_setAdd _ _).mpr (Or.inr hs))
        · exact hf5 x hx hxv1 s hs

/-- Everything the transitive walk collects is a transitive dependent. -/
theorem gatdF_sound (allNodes : List SkillTreeNode) :
    ∀ (fuel : Nat) (t : String) (visited res vis' : List String),
      getAllTransitiveDependentsF allNodes fuel t visited = some (res, vis') →
      ∀ s ∈ res, Relation.TransGen (DirectDep allNodes) t s := by
  intro fuel
  induction fuel with
  | zero =>
    intro t visited res vis' h
    rw [gatdF_zero] at h
    cases h
  | succ n ih =>
    intro t visited res vis' h
    rw [gatdF_succ] at h
    by_cases ht : t ∈ visited
    · rw [if_pos ht] at h
      cases h
      exact fun s hs => absurd hs (List.not_mem_nil s)
    · rw [if_neg ht] at h
      have hfold : ∀ (deps acc vis : List String) (res vis' : List String),
          (∀ d ∈ deps, DirectDep allNodes t d) →
          (∀ s ∈ acc, Relation.TransGen (DirectDep allNodes) t s) →
          gatdFold (getAllTransitiveDependentsF allNodes n) deps (acc, vis) =
            some (res, vis') →
          ∀ s ∈ res, Relation.TransGen (DirectDep allNodes) t s := by
        intro deps
        induction deps with
        | nil =>
          intro acc vis res vis' _ hacc hf
          simp only [gatdFold] at hf
          cases hf
          exact hacc
        | cons d rest ihd =>
          intro acc vis res vis' hdd hacc hf
          simp only [gatdFold] at hf
          cases hrec : getAllTransitiveDependentsF allNodes n d vis with
          | none => rw [hrec] at hf; cases hf
          | some p =>
            obtain ⟨resd, visd⟩ := p
            rw [hrec] at hf
            refine ihd _ visd res vis'
              (fun e he => hdd e (List.mem_cons_of_mem d he)) ?_ hf
            intro s hs
            rcases (mem_foldl_setAdd resd acc).mp hs with hs' | hs'
            · exact hacc s hs'
            · exact Relation.TransGen.head
                (hdd d (List.mem_cons_self d rest)) (ih d vis resd visd hrec s hs')
      refine hfold (directDependentsOf allNodes t)
        ((directDependentsOf allNodes t).foldl setAdd []) (visited ++ [t])
        res vis' (fun d hd => hd) ?_ h
      intro s hs
      rcases (mem_foldl_setAdd _ _).mp hs with hs' | hs'
      · exact absurd hs' (List.not_mem_nil s)
      · exact Relation.TransGen.single hs'

theorem length_filter_le_mono {α : Type} {p q : α → Bool} :
    ∀ l : List α, (∀ x ∈ l, p x = true → q x = true) →
      (l.filter p).length ≤ (l.filter q).length := by
  intro l
  induction l with
  | nil => intro _; exact Nat.le_refl _
  | cons x xs ih =>
    intro h
    have hxs := ih fun y hy => h y (List.mem_cons_of_mem x hy)
    cases hp : p x with
    | true =>
      rw [List.filter_cons_of_pos hp, List.filter_cons_of_pos
        (h x (List.mem_cons_self x xs) hp)]
      exact Nat.succ_le_succ hxs
    | false =>
      rw [List.filter_cons_of_neg (by simp [hp])]
      cases hq : q x with
      | true =>
        rw [List.filter_cons_of_pos hq]
        exact Nat.le_succ_of_le hxs
      | false =>
        rw [List.filter_cons_of_neg (by simp [hq])]
        exact hxs

theorem length_filter_lt_mono {α : Type} {p q : α → Bool} {a : α} :
    ∀ l : List α, a ∈ l → p a = false → q a = true →
      (∀ x ∈ l, p x = true → q x = true) →
      (l.filter p).length < (l.filter q).length := by
  intro l
  induction l with
  | nil => intro ha; exact absurd ha (List.not_mem_nil a)
  | cons x xs ih =>
    intro ha hpa hqa h
    rcases List.mem_cons.mp ha with rfl | ha'
    · rw [List.filter_cons_of_neg (by simp [hpa]), List.filter_cons_of_pos hqa]
      exact Nat.lt_succ_of_le
        (length_filter_le_mono xs fun y hy => h y (List.mem_cons_of_mem a hy))
    · have hxs := ih ha' hpa hqa fun y hy => h y (List.mem_cons_of_mem x hy)
      cases hp : p x with
      | true =>
        rw [List.filter_cons_of_pos hp, List.filter_cons_of_pos
          (h x (List.mem_cons_self x xs) hp)]
        exact Nat.succ_lt_succ hxs
      | false =>
        rw [List.filter_cons_of_neg (by simp [hp])]
        cases hq : q x with
        | true =>
          rw [List.filter_cons_of_pos hq]
          exact Nat.lt_succ_of_lt hxs
        | false =>
          rw [List.filter_cons_of_neg (by simp [hq])]
          exact hxs

/-- Termination measure for the transitive walk: how many distinct node slugs
are not yet in the visited set. -/
def slugCount (allNodes : List SkillTreeNode) (visited : List String) : Nat :=
  ((slugs allNodes).dedup.filter fun s => decide (s ∉ visited)).length

theorem slugCount_mono {allNodes : List SkillTreeNode} {v v' : List String}
    (h : ∀ x ∈ v, x ∈ v') : slugCount allNodes v' ≤ slugCount allNodes v := by
  refine length_filter_le_mono _ ?_
  intro x _ hx
  simp only [decide_eq_true_eq] at hx ⊢
  exact fun hxv => hx (h x hxv)

theorem slugCount_cons_lt {allNodes : List SkillTreeNode} {d : String}
    {visited : List String} (hd : d ∈ slugs allNodes) (hdv : d ∉ visited) :
    slugCount allNodes (d :: visited) < slugCount allNodes visited := by
  refine length_filter_lt_mono _ (List.mem_dedup.mpr hd) (by simp) (by simp [hdv]) ?_
  intro x _ hx
  simp only [decide_eq_true_eq] at hx ⊢
  exact fun hxv => hx (List.mem_cons_of_mem d hxv)

theorem slugCount_le_dedup_length (allNodes : List SkillTreeNode)
    (visited : List String) :
    slugCount allNodes visited ≤ (slugs allNodes).dedup.length :=
  List.length_filter_le _ _

/-- The fuel-indexed transitive walk succeeds once the fuel exceeds the number
of unvisited slugs by two. -/
theorem gatdF_isSome (allNodes : List SkillTreeNode) :
    ∀ (fuel : Nat) (t : String) (visited : List String),
      slugCount allNodes (t :: visited) + 2 ≤ fuel →
      (getAllTransitiveDependentsF allNodes fuel t visited).isSome := by
  intro fuel
  induction fuel with
  | zero =>
    intro t visited h
    exact absurd h (by omega)
  | succ n ih =>
    intro t visited hb
    rw [gatdF_succ]
    by_cases ht : t ∈ visited
    · rw [if_pos ht]; rfl
    · rw [if_neg ht]
      have hfold : ∀ (deps : List String), (∀ d ∈ deps, d ∈ slugs allNodes) →
          ∀ (acc vis : List String), (∀ x ∈ t :: visited, x ∈ vis) →
          (gatdFold (getAllTransitiveDependentsF allNodes n) deps
            (acc, vis)).isSome := by
        intro deps
        induction deps with
        | nil =>
          intro _ acc vis _
          rfl
        | cons d rest ihd =>
          intro hdd acc vis hvis
          simp only [gatdFold]
          by_cases hdv : d ∈ vis
          · obtain ⟨m, rfl⟩ : ∃ m, n = m + 1 := ⟨n - 1, by omega⟩
            rw [show getAllTransitiveDependentsF allNodes (m + 1) d vis =
              some ([], vis) from by rw [gatdF_succ, if_pos hdv]]
            exact ihd (fun e he => hdd e (List.mem_cons_of_mem d he)) _ vis hvis
          · have hbound : slugCount allNodes (d :: vis) + 2 ≤ n := by
              have h1 : slugCount allNodes (d :: vis) < slugCount allNodes vis :=
                slugCount_cons_lt (hdd d (List.mem_cons_self d rest)) hdv
              have h2 : slugCount allNodes vis ≤
                  slugCount allNodes (t :: visited) := slugCount_mono hvis
              omega
            have hsome := ih d vis hbound
            cases hcall : getAllTransitiveDependentsF allNodes n d vis with
            | none => rw [hcall] at hsome; exact absurd hsome (by simp)
            | some p =>
              obtain ⟨resd, visd⟩ := p
              have hgrow := (gatdF_inv allNodes n d vis resd visd hcall).1
              exact ihd (fun e he => hdd e (List.mem_cons_of_mem d he)) _ visd
                (fun x hx => hgrow x (hvis x hx))
      refine hfold (directDependentsOf allNodes t)
        (fun d hd => directDependentsOf_subset_slugs hd) _ (visited ++ [t]) ?_
      intro x hx
      rcases List.mem_cons.mp hx with rfl | hx'
      · simp
      · simp [hx']

/-- The transitive walk, started on a fresh visited set, returns exactly the
transitive dependents of the target. -/
theorem gatd_mem_iff (allNodes : List SkillTreeNode) (fuel : Nat) (t : String)
    (res : List String)
    (h : getAllTransitiveDependents fuel t allNodes = some res) :
    ∀ s, s ∈ res ↔ Relation.TransGen (DirectDep allNodes) t s := by
  unfold getAllTransitiveDependents at h
  cases hF : getAllTransitiveDependentsF allNodes fuel t [] with
  | none => rw [hF] at h; cases h
  | some p =>
    obtain ⟨res0, vis'⟩ := p
    rw [hF] at h
    simp only [Option.map_some'] at h
    cases h
    intro s
    constructor
    · exact fun hs => gatdF_sound allNodes fuel t [] res vis' hF s hs
    · intro htg
      obtain ⟨-, hres, htvis, hI3⟩ := gatdF_inv allNodes fuel t [] res vis' hF
      induction htg with
      | single hd => exact hI3 t htvis (List.not_mem_nil t) _ hd
      | tail h1 h2 ihtg => exact hI3 _ (hres _ ihtg) (List.not_mem_nil _) _ h2

theorem recordGet_cons (kv : String × Point) (m : List (String × Point))
    (k : String) :
    recordGet (kv :: m) k = if kv.1 = k then some kv.2 else recordGet m k := by
  by_cases h : kv.1 = k
  · simp [recordGet, List.find?_cons_of_pos, h]
  · simp [recordGet, List.find?_cons_of_neg, h]

theorem recordGet_map_overwrite (k : String) (v : Point) :
    ∀ m : List (String × Point),
      (m.any fun kv => kv.1 = k) = true →
      recordGet (m.map fun kv => if kv.1 = k then (k, v) else kv) k = some v := by
  intro m
  induction m with
  | nil => intro h; simp at h
  | cons kv rest ih =>
    intro h
    by_cases hk : kv.1 = k
    · simp only [List.map_cons, if_pos hk, recordGet_cons]
      simp
    · simp only [List.map_cons, if_neg hk, recordGet_cons, if_neg hk]
      apply ih
      simp only [List.any_cons, Bool.or_eq_true] at h
      rcases h with h' | h'
      · exact absurd (by simpa using h') hk
      · exact h'

theorem recordGet_map_ne (k : String) (v : Point) (s : String) (hks : ¬ k = s) :
    ∀ m : List (String × Point),
      recordGet (m.map fun kv => if kv.1 = k then (k, v) else kv) s =
      recordGet m s := by
  intro m
  induction m with
  | nil => rfl
  | cons kv rest ih =>
    by_cases hk : kv.1 = k
    · have hkvs : ¬ kv.1 = s := by rw [hk]; exact hks
      simp only [List.map_cons, if_pos hk, recordGet_cons, if_neg hks,
        if_neg hkvs, ih]
    · simp only [List.map_cons, if_neg hk, recordGet_cons, ih]

theorem recordGet_append_single (k : String) (v : Point) (s : String) :
    ∀ m : List (String × Point), (∀ kv ∈ m, ¬ kv.1 = k) →
      recordGet (m ++ [(k, v)]) s =
      if k = s then some v else recordGet m s := by
  intro m
  induction m with
  | nil =>
    intro _
    rw [List.nil_append, recordGet_cons]
  | cons kv rest ih =>
    intro hnone
    rw [List.cons_append, recordGet_cons]
    by_cases hkvs : kv.1 = s
    · have hks : ¬ k = s := fun h => hnone kv (List.mem_cons_self kv rest)
        (hkvs.trans h.symm)
      rw [if_pos hkvs, if_neg hks, recordGet_cons, if_pos hkvs]
    · rw [if_neg hkvs, ih fun kv2 hkv2 => hnone kv2 (List.mem_cons_of_mem kv hkv2)]
      by_cases hks : k = s
      · rw [if_pos hks, if_pos hks]
      · rw [if_neg hks, if_neg hks, recordGet_cons, if_neg hkvs]

theorem recordGet_recordSet (m : List (String × Point)) (k : String) (v : Point)
    (s : String) :
    recordGet (recordSet m k v) s = if k = s then some v else recordGet m s := by
  unfold recordSet
  by_cases hany : (m.any fun kv => kv.1 = k) = true
  · rw [if_pos hany]
    by_cases hks : k = s
    · subst hks
      rw [if_pos rfl]
      exact recordGet_map_overwrite k v m hany
    · rw [if_neg hks]
      exact recordGet_map_ne k v s hks m
  · rw [if_neg hany]
    refine recordGet_append_single k v s m ?_
    intro kv hkv
    have hf : (m.any fun kv => kv.1 = k) = false := Bool.eq_false_iff.mpr hany
    simpa using List.any_eq_false.mp hf kv hkv

theorem recordGet_foldl_not_mem (offset : Point) :
    ∀ (ds : List SkillTreeNode) (m : List (String × Point)) (s : String),
      s ∉ ds.map (fun n => n.exercise.slug) →
      recordGet (ds.foldl (fun acc depNode => recordSet acc depNode.exercise.slug
        ⟨depNode.position.x + offset.x, depNode.position.y + offset.y⟩) m) s =
      recordGet m s := by
  intro ds
  induction ds with
  | nil => intro m s _; rfl
  | cons d rest ih =>
    intro m s hs
    rw [List.map_cons] at hs
    have hds : ¬ d.exercise.slug = s := fun h => hs (by simp [h])
    rw [List.foldl_cons, ih _ s (fun h => hs (List.mem_cons_of_mem _ h)),
      recordGet_recordSet, if_neg hds]

/-- Reading the folded record: the first dependent node matching the slug
wins (slugs are unique), shifted by the common offset; otherwise the base
record is read. -/
theorem recordGet_foldl (offset : Point) :
    ∀ (ds : List SkillTreeNode) (m : List (String × Point)) (s : String),
      (ds.map fun n => n.exercise.slug).Nodup →
      recordGet (ds.foldl (fun acc depNode => recordSet acc depNode.exercise.slug
        ⟨depNode.position.x + offset.x, depNode.position.y + offset.y⟩) m) s =
      (match ds.find? (fun n => n.exercise.slug = s) with
       | some d => some ⟨d.position.x + offset.x, d.position.y + offset.y⟩
       | none => recordGet m s) := by
  intro ds
  induction ds with
  | nil => intro m s _; rfl
  | cons d rest ih =>
    intro m s hnd
    rw [List.map_cons, List.nodup_cons] at hnd
    obtain ⟨hdnotin, hrestnd⟩ := hnd
    rw [List.foldl_cons]
    by_cases hds : d.exercise.slug = s
    · rw [List.find?_cons_of_pos _ (by simp [hds])]
      rw [recordGet_foldl_not_mem offset rest _ s (hds ▸ hdnotin),
        recordGet_recordSet, if_pos hds]
    · rw [List.find?_cons_of_neg _ (by simp [hds])]
      rw [ih _ s hrestnd]
      cases rest.find? fun n => n.exercise.slug = s with
      | some d' => rfl
      | none => rw [recordGet_recordSet, if_neg hds]

theorem nodup_slug_unique_mem {nodes : List SkillTreeNode}
    (hnd : List.Nodup (slugs nodes)) {n m : SkillTreeNode}
    (hn : n ∈ nodes) (hm : m ∈ nodes)
    (hs : n.exercise.slug = m.exercise.slug) : n = m := by
  obtain ⟨i, hi⟩ := List.mem_iff_getElem?.mp hn
  obtain ⟨k, hk⟩ := List.mem_iff_getElem?.mp hm
  have hik := nodup_slug_unique hnd hi hk hs
  subst hik
  rw [hi] at hk
  exact Option.some.inj hk

theorem point_shift_cancel (p q : Point) :
    (⟨q.x + (p.x - q.x), q.y + (p.y - q.y)⟩ : Point) = p := by
  obtain ⟨px, py⟩ := p
  obtain ⟨qx, qy⟩ := q
  simp only [Point.mk.injEq]
  constructor <;> ring

/-- The drag propagator succeeds whenever the fuel exceeds the number of
distinct slugs by two. -/
theorem calculateDraggedPositions_isSome (draggedNodeSlug : String) (P : Point)
    (currentNodes : List SkillTreeNode) :
    (calculateDraggedPositions ((slugs currentNodes).dedup.length + 2)
      draggedNodeSlug P currentNodes).isSome := by
  unfold calculateDraggedPositions
  cases hfind : currentNodes.find? fun n => n.exercise.slug = draggedNodeSlug with
  | none => rfl
  | some dn =>
    have hb : slugCount currentNodes (draggedNodeSlug :: []) + 2 ≤
        (slugs currentNodes).dedup.length + 2 := by
      have := slugCount_le_dedup_length currentNodes (draggedNodeSlug :: [])
      omega
    have hs := gatdF_isSome currentNodes _ draggedNodeSlug [] hb
    cases hg : getAllTransitiveDependentsF currentNodes
        ((slugs currentNodes).dedup.length + 2) draggedNodeSlug [] with
    | none => rw [hg] at hs; exact absurd hs (by simp)
    | some p =>
      simp [getAllTransitiveDependents, hg]

/-- C2: for a dragged slug present in a node array with unique slugs, the
returned record contains exactly the entry for the dragged slug at the new
position, plus one entry per transitive dependent, whose value is that
dependent's current position shifted by the same offset the dragged node
moved by. -/
theorem calculateDraggedPositions_spec
    (fuel : Nat) (draggedNodeSlug : String) (P : Point)
    (currentNodes : List SkillTreeNode) (dn : SkillTreeNode)
    (out : List (String × Point))
    (hnd : List.Nodup (slugs currentNodes))
    (hfind : currentNodes.find? (fun n => n.exercise.slug = draggedNodeSlug) =
      some dn)
    (hout : calculateDraggedPositions fuel draggedNodeSlug P currentNodes =
      some out) :
    ∀ (s : String) (v : Point),
      recordGet out s = some v ↔
        (s = draggedNodeSlug ∧ v = P) ∨
        (s ≠ draggedNodeSlug ∧
          Relation.TransGen (DirectDep currentNodes) draggedNodeSlug s ∧
          ∃ D ∈ currentNodes, D.exercise.slug = s ∧
            v = ⟨D.position.x + (P.x - dn.position.x),
                 D.position.y + (P.y - dn.position.y)⟩) := by
  have hdn_mem : dn ∈ currentNodes := List.mem_of_find?_eq_some hfind
  have hdn_slug : dn.exercise.slug = draggedNodeSlug := by
    simpa using List.find?_some hfind
  simp only [calculateDraggedPositions, hfind] at hout
  cases hg : getAllTransitiveDependents fuel draggedNodeSlug currentNodes with
  | none => rw [hg] at hout; cases hout
  | some dependentSlugs =>
    rw [hg] at hout
    rw [Option.some.injEq] at hout
    subst hout
    have hmem_iff := gatd_mem_iff currentNodes fuel draggedNodeSlug
      dependentSlugs hg
    have hsubl : ((currentNodes.filter fun node =>
        dependentSlugs.contains node.exercise.slug).map
          fun n => n.exercise.slug).Sublist (slugs currentNodes) :=
      (List.filter_sublist _).map _
    have hndDS := hnd.sublist hsubl
    intro s v
    rw [recordGet_foldl ⟨P.x - dn.position.x, P.y - dn.position.y⟩ _ _ _ hndDS]
    cases hf : (currentNodes.filter fun node =>
        dependentSlugs.contains node.exercise.slug).find?
          fun n => n.exercise.slug = s with
    | some D =>
      have hD_mem_f : D ∈ currentNodes.filter fun node =>
          dependentSlugs.contains node.exercise.slug :=
        List.mem_of_find?_eq_some hf
      have hD_slug : D.exercise.slug = s := by simpa using List.find?_some hf
      have hD_mem : D ∈ currentNodes := (List.mem_filter.mp hD_mem_f).1
      have hD_in : s ∈ dependentSlugs := by
        have := (List.mem_filter.mp hD_mem_f).2
        rw [hD_slug] at this
        simpa using this
      have hTG : Relation.TransGen (DirectDep currentNodes) draggedNodeSlug s :=
        (hmem_iff s).mp hD_in
      constructor
      · intro hv
        rw [Option.some.injEq] at hv
        by_cases hsd : s = draggedNodeSlug
        · left

          have hDdn : D = dn := nodup_slug_unique_mem hnd hD_mem hdn_mem
            (by rw [hD_slug, hsd, hdn_slug])
          subst hDdn
          refine ⟨hsd, ?_⟩
          rw [← hv]
          exact point_shift_cancel P D.position
        · exact Or.inr ⟨hsd, hTG, D, hD_mem, hD_slug, hv.symm⟩
      · rintro (⟨rfl, hPv⟩ | ⟨hsd, -, D', hD'_mem, hD'_slug, rfl⟩)
        · have hDdn : D = dn := nodup_slug_unique_mem hnd hD_mem hdn_mem
            (by rw [hD_slug, hdn_slug])
          subst hDdn
          rw [Option.some.injEq, hPv]
          exact point_shift_cancel P D.position
        · have hDD' : D' = D := nodup_slug_unique_mem hnd hD'_mem hD_mem
            (by rw [hD'_slug, hD_slug])
          subst hDD'
          rfl
    | none =>
      rw [recordGet_cons]
      by_cases hsd : draggedNodeSlug = s
      · rw [if_pos hsd]
        constructor
        · intro hv
          rw [Option.some.injEq] at hv
          exact Or.inl ⟨hsd.symm, hv.symm⟩
        · rintro (⟨-, rfl⟩ | ⟨hsd', -, -⟩)
          · rfl
          · exact absurd hsd.symm hsd'
      · rw [if_neg hsd]
        constructor
        · intro hv
          simp [recordGet] at hv
        · rintro (⟨rfl, -⟩ | ⟨-, hTG', D', hD'mem, hD'slug, -⟩)
          · exact absurd rfl hsd
          · have hs_in : s ∈ dependentSlugs := (hmem_iff s).mpr hTG'
            have hDf : D' ∈ currentNodes.filter fun node =>
                dependentSlugs.contains node.exercise.slug :=
              List.mem_filter.mpr ⟨hD'mem, by rw [hD'slug]; simpa using hs_in⟩
            have := List.find?_eq_none.mp hf D' hDf
            simp [hD'slug] at this

/-- Dragging the root of the three-node example to (20,0) moves the chain
rigidly: the mid node ends at (20,50). -/
theorem calculateDraggedPositions_spec_witness :
    ∃ out, calculateDraggedPositions 5 "root" ⟨20, 0⟩
        [rootNode, midNode, leafNode] = some out ∧
      recordGet out "mid" = some ⟨20, 50⟩ := by
  have h5 : (slugs [rootNode, midNode, leafNode]).dedup.length + 2 = 5 := by
    decide
  have hs := calculateDraggedPositions_isSome "root" ⟨20, 0⟩
    [rootNode, midNode, leafNode]
  rw [h5] at hs
  obtain ⟨out, hout⟩ := Option.isSome_iff_exists.mp hs
  refine ⟨out, hout, ?_⟩
  have hfind : List.find? (fun n => n.exercise.slug = "root")
      [rootNode, midNode, leafNode] = some rootNode := rfl
  refine (calculateDraggedPositions_spec 5 "root" ⟨20, 0⟩
    [rootNode, midNode, leafNode] rootNode out (by decide) hfind hout
    "mid" ⟨20, 50⟩).mpr ?_
  refine Or.inr ⟨by decide, Relation.TransGen.single ?_, midNode, by simp,
    rfl, ?_⟩
  · show "mid" ∈ directDependentsOf [rootNode, midNode, leafNode] "root"
    decide
  · simp only [midNode, rootNode, Point.mk.injEq]
    norm_num

/-! ## Cyclic inputs: the layout pass diverges, the drag walk terminates -/

/-- Exercise `"ca"`, depending on `"cb"`. -/
def cycA : Exercise := ⟨"ca", "locked", "CA", "", none, some ["cb"], none, none, none⟩

/-- Exercise `"cb"`, depending on `"ca"`. -/
def cycB : Exercise := ⟨"cb", "locked", "CB", "", none, some ["ca"], none, none, none⟩

/-- The built node for `cycA` (placeholder position, dependents filled). -/
def cycNodeA : SkillTreeNode := ⟨cycA, fallbackPath, ⟨0, 0⟩, ["cb"], ["cb"]⟩

/-- The built node for `cycB`. -/
def cycNodeB : SkillTreeNode := ⟨cycB, fallbackPath, ⟨0, 0⟩, ["ca"], ["ca"]⟩

/-- The layout state entering the position pass on the two-cycle. -/
def cycSt : LayoutState := ⟨[cycNodeA, cycNodeB], []⟩

theorem cyc_build_nodes :
    computeDependents ([cycA, cycB].map (initialNode [])) = [cycNodeA, cycNodeB] := by
  simp +decide [computeDependents, addDependent, initialNode, mapGet,
    fallbackPath, cycA, cycB, cycNodeA, cycNodeB]

/-- On the two-cycle the position recursion never returns, at any fuel:
neither node ever enters the positioned set, so each recursive round
re-enters the other node unchanged. -/
theorem cyc_diverges :
    ∀ fuel, calculatePosition fuel cycSt 0 = none ∧
      calculatePosition fuel cycSt 1 = none := by
  intro fuel
  induction fuel with
  | zero => exact ⟨rfl, rfl⟩
  | succ n ih =>
    have hidxB : lastIdx? cycSt.nodes "cb" = some 1 := by decide
    have hidxA : lastIdx? cycSt.nodes "ca" = some 0 := by decide
    constructor
    · have hpd : positionDeps n cycSt ("cb" :: []) = none :=
        posDeps_go_none hidxB (by decide) ih.2
      have hn0 : cycSt.nodes[0]? = some cycNodeA := by simp [cycSt]
      exact calcPos_rec_none hn0 (by decide) (by decide) hpd
    · have hpd : positionDeps n cycSt ("ca" :: []) = none :=
        posDeps_go_none hidxA (by decide) ih.1
      have hn1 : cycSt.nodes[1]? = some cycNodeB := by simp [cycSt]
      exact calcPos_rec_none hn1 (by decide) (by decide) hpd

theorem cyc_build_none :
    ∀ fuel, createSkillTreeData fuel [cycA, cycB] [] = none := by
  intro fuel
  unfold createSkillTreeData resolveLayout
  rw [cyc_build_nodes]
  have h01 : List.range ([cycNodeA, cycNodeB] : List SkillTreeNode).length =
      [0, 1] := rfl
  rw [h01]
  show (calcAll fuel cycSt [0, 1]).map LayoutState.nodes = none
  simp [calcAll, (cyc_diverges fuel).1]

/-- Termination of the graph build in the fuel embedding: some fuel makes the
layout pass return. -/
def buildTerminates (exercises : List Exercise) (paths : List Path) : Prop :=
  ∃ fuel out, createSkillTreeData fuel exercises paths = some out

/-- C7 counterexample: on the cyclic input `"ca" ↔ "cb"` the layout pass runs
out of any amount of fuel — the original recursion never terminates, because
a node only enters the positioned set after its dependencies have been
processed. -/
theorem cycle_termination_counterexample :
    ¬ buildTerminates [cycA, cycB] [] := by
  rintro ⟨fuel, out, h⟩
  rw [cyc_build_none fuel] at h
  cases h

/-- C7 amended: the drag propagation terminates on every input (its visited
set is extended on entry), but the layout pass on a cyclic input diverges
(its positioned set is only extended after the dependencies are processed). -/
theorem cycle_termination_amended :
    (∀ (nodes : List SkillTreeNode) (slug : String) (P : Point),
      (calculateDraggedPositions ((slugs nodes).dedup.length + 2)
        slug P nodes).isSome) ∧
    (∀ fuel, createSkillTreeData fuel [cycA, cycB] [] = none) :=
  ⟨fun nodes slug P => calculateDraggedPositions_isSome slug P nodes,
   cyc_build_none⟩

/-! ## Connector routing (`calculateAvoidancePath` and helpers)

The collision predicate follows the source, square roots included, as a
proposition over exact rational inputs; its decidability is recovered from an
algebraically equivalent rational form proved below. -/

/-- An obstacle circle. -/
structure ObstacleNode where
  x : ℚ
  y : ℚ
  radius : ℚ
  deriving DecidableEq, Repr

/-- `lineIntersectsCircle` from the routing utilities: degenerate segments use
a point-to-center distance check, other segments solve the line–circle
quadratic and ask for a root `t ∈ [0,1]`. -/
def lineIntersectsCircle (lineStart lineEnd : Point) (circle : ObstacleNode)
    (clearance : ℚ) : Prop :=
  let radius := circle.radius + clearance
  let dx := lineEnd.x - lineStart.x
  let dy := lineEnd.y - lineStart.y
  if dx = 0 ∧ dy = 0 then
    Real.sqrt (((lineStart.x - circle.x) ^ 2 + (lineStart.y - circle.y) ^ 2 : ℚ)) ≤
      (radius : ℝ)
  else
    let fx := lineStart.x - circle.x
    let fy := lineStart.y - circle.y
    let a := dx * dx + dy * dy
    let b := 2 * (fx * dx + fy * dy)
    let c := fx * fx + fy * fy - radius * radius
    let discriminant := b * b - 4 * a * c
    if discriminant < 0 then False
    else
      let ds : ℝ := Real.sqrt ((discriminant : ℚ) : ℝ)
      let t1 : ℝ := (-(b : ℝ) - ds) / (2 * (a : ℝ))
      let t2 : ℝ := (-(b : ℝ) + ds) / (2 * (a : ℝ))
      (0 ≤ t1 ∧ t1 ≤ 1) ∨ (0 ≤ t2 ∧ t2 ≤ 1)

/-- Rational reformulation of `lineIntersectsCircle` (no square roots), proved
equivalent below; it supplies the decision procedure. -/
def lineIntersectsCircleAlg (lineStart lineEnd : Point) (circle : ObstacleNode)
    (clearance : ℚ) : Prop :=
  let radius := circle.radius + clearance
  let dx := lineEnd.x - lineStart.x
  let dy := lineEnd.y - lineStart.y
  if dx = 0 ∧ dy = 0 then
    0 ≤ radius ∧
      (lineStart.x - circle.x) ^ 2 + (lineStart.y - circle.y) ^ 2 ≤ radius ^ 2
  else
    let fx := lineStart.x - circle.x
    let fy := lineStart.y - circle.y
    let a := dx * dx + dy * dy
    let b := 2 * (fx * dx + fy * dy)
    let c := fx * fx + fy * fy - radius * radius
    let discriminant := b * b - 4 * a * c
    if discriminant < 0 then False
    else
      (b ≤ 0 ∧ 0 ≤ c ∧ (0 ≤ 2 * a + b ∨ a + b + c ≤ 0)) ∨
      ((b ≤ 0 ∨ c ≤ 0) ∧ 0 ≤ 2 * a + b ∧ 0 ≤ a + b + c)

set_option maxHeartbeats 1000000 in
/-- Both roots of a positive-leading-coefficient quadratic with nonnegative
discriminant: when `(-b ∓ √disc)/(2a)` lands in `[0,1]`, in rational terms. -/
theorem quadRootInRange_iff (a b c : ℝ) (ha : 0 < a) (hD : 0 ≤ b ^ 2 - 4 * a * c) :
    ((0 ≤ (-b - Real.sqrt (b ^ 2 - 4 * a * c)) / (2 * a) ∧
        (-b - Real.sqrt (b ^ 2 - 4 * a * c)) / (2 * a) ≤ 1) ∨
     (0 ≤ (-b + Real.sqrt (b ^ 2 - 4 * a * c)) / (2 * a) ∧
        (-b + Real.sqrt (b ^ 2 - 4 * a * c)) / (2 * a) ≤ 1)) ↔
    ((b ≤ 0 ∧ 0 ≤ c ∧ (0 ≤ 2 * a + b ∨ a + b + c ≤ 0)) ∨
     ((b ≤ 0 ∨ c ≤ 0) ∧ 0 ≤ 2 * a + b ∧ 0 ≤ a + b + c)) := by
  have h2a : (0 : ℝ) < 2 * a := by linarith
  have hs0 : 0 ≤ Real.sqrt (b ^ 2 - 4 * a * c) := Real.sqrt_nonneg _
  have hs2 : Real.sqrt (b ^ 2 - 4 * a * c) ^ 2 = b ^ 2 - 4 * a * c :=
    Real.sq_sqrt hD
  set s := Real.sqrt (b ^ 2 - 4 * a * c) with hs
  have e1 : (0 ≤ (-b - s) / (2 * a)) ↔ 0 ≤ -b - s := by
    rw [le_div_iff₀ h2a, zero_mul]
  have e2 : ((-b - s) / (2 * a) ≤ 1) ↔ -b - s ≤ 2 * a := by
    rw [div_le_one h2a]
  have e3 : (0 ≤ (-b + s) / (2 * a)) ↔ 0 ≤ -b + s := by
    rw [le_div_iff₀ h2a, zero_mul]
  have e4 : ((-b + s) / (2 * a) ≤ 1) ↔ -b + s ≤ 2 * a := by
    rw [div_le_one h2a]
  rw [e1, e2, e3, e4]
  have A : (0 ≤ -b - s) ↔ (b ≤ 0 ∧ 0 ≤ c) := by
    constructor
    · intro h
      have hb : b ≤ 0 := by linarith
      have hsle : s ≤ -b := by linarith
      have : s ^ 2 ≤ (-b) ^ 2 := by nlinarith
      constructor
      · exact hb
      · nlinarith
    · rintro ⟨hb, hc⟩
      have h1 : b ^ 2 - 4 * a * c ≤ b ^ 2 := by nlinarith
      have h2 : s ≤ Real.sqrt (b ^ 2) := by
        rw [hs]; exact Real.sqrt_le_sqrt h1
      rw [Real.sqrt_sq_eq_abs, abs_of_nonpos hb] at h2
      linarith
  have B : (-b - s ≤ 2 * a) ↔ (0 ≤ 2 * a + b ∨ a + b + c ≤ 0) := by
    constructor
    · intro h
      by_cases hy : 0 ≤ 2 * a + b
      · exact Or.inl hy
      · right
        push_neg at hy
        have h1 : -(2 * a + b) ≤ s := by linarith
        have h2 : (2 * a + b) ^ 2 ≤ s ^ 2 := by nlinarith
        nlinarith
    · rintro (hy | habc)
      · linarith
      · have h1 : (2 * a + b) ^ 2 ≤ b ^ 2 - 4 * a * c := by nlinarith
        have h2 : Real.sqrt ((2 * a + b) ^ 2) ≤ s := by
          rw [hs]; exact Real.sqrt_le_sqrt h1
        rw [Real.sqrt_sq_eq_abs] at h2
        have h3 : -(2 * a + b) ≤ |2 * a + b| := neg_le_abs _
        linarith
  have C : (0 ≤ -b + s) ↔ (b ≤ 0 ∨ c ≤ 0) := by
    constructor
    · intro h
      by_cases hb : b ≤ 0
      · exact Or.inl hb
      · right
        push_neg at hb
        have h1 : b ≤ s := by linarith
        have h2 : b ^ 2 ≤ s ^ 2 := by nlinarith
        nlinarith
    · rintro (hb | hc)
      · linarith
      · have h1 : b ^ 2 ≤ b ^ 2 - 4 * a * c := by nlinarith
        have h2 : Real.sqrt (b ^ 2) ≤ s := by
          rw [hs]; exact Real.sqrt_le_sqrt h1
        rw [Real.sqrt_sq_eq_abs] at h2
        have h3 : b ≤ |b| := le_abs_self b
        linarith
  have D : (-b + s ≤ 2 * a) ↔ (0 ≤ 2 * a + b ∧ 0 ≤ a + b + c) := by
    constructor
    · intro h
      have hy : 0 ≤ 2 * a + b := by linarith
      have h1 : s ≤ 2 * a + b := by linarith
      have h2 : s ^ 2 ≤ (2 * a + b) ^ 2 := by nlinarith
      exact ⟨hy, by nlinarith⟩
    · rintro ⟨hy, habc⟩
      have h1 : b ^ 2 - 4 * a * c ≤ (2 * a + b) ^ 2 := by nlinarith
      have h2 : s ≤ Real.sqrt ((2 * a + b) ^ 2) := by
        rw [hs]; exact Real.sqrt_le_sqrt h1
      rw [Real.sqrt_sq_eq_abs, abs_of_nonneg hy] at h2
      linarith
  rw [A, B, C, D, and_assoc]

instance (p q : Point) (circle : ObstacleNode) (cl : ℚ) :
    Decidable (lineIntersectsCircleAlg p q circle cl) := by
  unfold lineIntersectsCircleAlg
  infer_instance

set_option maxHeartbeats 1000000 in
/-- The source collision predicate agrees with its square-root-free rational
reformulation. -/
theorem lineIntersectsCircle_iff_alg (p q : Point) (circle : ObstacleNode)
    (cl : ℚ) :
    lineIntersectsCircle p q circle cl ↔ lineIntersectsCircleAlg p q circle cl := by
  simp only [lineIntersectsCircle, lineIntersectsCircleAlg]
  by_cases hdeg : q.x - p.x = 0 ∧ q.y - p.y = 0
  · rw [if_pos hdeg, if_pos hdeg]
    constructor
    · intro h
      have hr : (0 : ℝ) ≤ ((circle.radius + cl : ℚ) : ℝ) :=
        le_trans (Real.sqrt_nonneg _) h
      have hr2 : (0 : ℚ) ≤ circle.radius + cl := by exact_mod_cast hr
      refine ⟨hr2, ?_⟩
      have hsq : (((p.x - circle.x) ^ 2 + (p.y - circle.y) ^ 2 : ℚ) : ℝ) =
          Real.sqrt (((p.x - circle.x) ^ 2 + (p.y - circle.y) ^ 2 : ℚ)) ^ 2 := by
        rw [Real.sq_sqrt]
        push_cast
        positivity
      have hle : (((p.x - circle.x) ^ 2 + (p.y - circle.y) ^ 2 : ℚ) : ℝ) ≤
          ((circle.radius + cl : ℚ) : ℝ) ^ 2 := by
        rw [hsq]
        exact pow_le_pow_left (Real.sqrt_nonneg _) h 2
      exact_mod_cast hle
    · rintro ⟨hr, hle⟩
      have hleR : (((p.x - circle.x) ^ 2 + (p.y - circle.y) ^ 2 : ℚ) : ℝ) ≤
          ((circle.radius + cl : ℚ) : ℝ) ^ 2 := by exact_mod_cast hle
      have h2 : Real.sqrt (((p.x - circle.x) ^ 2 + (p.y - circle.y) ^ 2 : ℚ)) ≤
          Real.sqrt (((circle.radius + cl : ℚ) : ℝ) ^ 2) :=
        Real.sqrt_le_sqrt hleR
      rw [Real.sqrt_sq_eq_abs, abs_of_nonneg (by exact_mod_cast hr)] at h2
      exact h2
  · rw [if_neg hdeg, if_neg hdeg]
    have hA : (0 : ℚ) < (q.x - p.x) * (q.x - p.x) + (q.y - p.y) * (q.y - p.y) := by
      rcases not_and_or.mp hdeg with hdx | hdy
      · have := mul_self_pos.mpr hdx
        nlinarith [mul_self_nonneg (q.y - p.y)]
      · have := mul_self_pos.mpr hdy
        nlinarith [mul_self_nonneg (q.x - p.x)]
    by_cases hdisc :
        (2 * ((p.x - circle.x) * (q.x - p.x) + (p.y - circle.y) * (q.y - p.y))) *
          (2 * ((p.x - circle.x) * (q.x - p.x) + (p.y - circle.y) * (q.y - p.y))) -
        4 * ((q.x - p.x) * (q.x - p.x) + (q.y - p.y) * (q.y - p.y)) *
          ((p.x - circle.x) * (p.x - circle.x) + (p.y - circle.y) * (p.y - circle.y) -
            (circle.radius + cl) * (circle.radius + cl)) < 0
    · rw [if_pos hdisc, if_pos hdisc]
    · rw [if_neg hdisc, if_neg hdisc]
      push_neg at hdisc
      have hcast : ((((2 * ((p.x - circle.x) * (q.x - p.x) +
          (p.y - circle.y) * (q.y - p.y))) *
          (2 * ((p.x - circle.x) * (q.x - p.x) + (p.y - circle.y) * (q.y - p.y))) -
          4 * ((q.x - p.x) * (q.x - p.x) + (q.y - p.y) * (q.y - p.y)) *
          ((p.x - circle.x) * (p.x - circle.x) +
            (p.y - circle.y) * (p.y - circle.y) -
            (circle.radius + cl) * (circle.radius + cl))) : ℚ) : ℝ) =
          ((2 * ((p.x - circle.x) * (q.x - p.x) + (p.y - circle.y) * (q.y - p.y)) :
            ℚ) : ℝ) ^ 2 -
          4 * (((q.x - p.x) * (q.x - p.x) + (q.y - p.y) * (q.y - p.y) : ℚ) : ℝ) *
          (((p.x - circle.x) * (p.x - circle.x) +
            (p.y - circle.y) * (p.y - circle.y) -
            (circle.radius + cl) * (circle.radius + cl) : ℚ) : ℝ) := by
        push_cast
        ring
      rw [hcast]
      rw [quadRootInRange_iff _ _ _ (by exact_mod_cast hA) (by
        rw [← hcast]; exact_mod_cast hdisc)]
      exact_mod_cast Iff.rfl

instance (p q : Point) (circle : ObstacleNode) (cl : ℚ) :
    Decidable (lineIntersectsCircle p q circle cl) :=
  decidable_of_iff _ (lineIntersectsCircle_iff_alg p q circle cl).symm

/-- `pathIntersectsObstacles`: some segment of the polyline hits some obstacle.
(The source's early exits for short paths and empty obstacle lists are
absorbed: both make the existential empty.) -/
def pathIntersectsObstacles (path : List Point) (obstacles : List ObstacleNode)
    (clearance : ℚ) : Prop :=
  ∃ seg ∈ path.zip path.tail, ∃ o ∈ obstacles,
    lineIntersectsCircle seg.1 seg.2 o clearance

instance (path : List Point) (obstacles : List ObstacleNode) (clearance : ℚ) :
    Decidable (pathIntersectsObstacles path obstacles clearance) := by
  unfold pathIntersectsObstacles
  infer_instance

/-- `getDirectPath`: down-then-across when moving downward, across-then-down
otherwise. -/
def getDirectPath (start finish : Point) : List Point :=
  let dx := finish.x - start.x
  let dy := finish.y - start.y
  if 0 < dy then
    let midY := start.y + dy * 0.6
    [start, ⟨start.x, midY⟩, ⟨finish.x, midY⟩, finish]
  else
    let midX := start.x + dx * 0.5
    [start, ⟨midX, start.y⟩, ⟨midX, finish.y⟩, finish]

/-- The strategy loop of `findPathAroundObstacles`: first candidate whose
polyline is collision-free. -/
def firstClear (obstacles : List ObstacleNode) (clearance : ℚ) :
    List (List Point) → Option (List Point)
  | [] => none
  | s :: rest =>
    if pathIntersectsObstacles s obstacles clearance then
      firstClear obstacles clearance rest
    else some s

/-- The fixed candidate list of `findPathAroundObstacles`: the original
L-route again, the horizontal shortcut, the vertical shortcut, and the
0.3/0.7 arc. -/
def routingStrategies (start finish : Point) : List (List Point) :=
  let dx := finish.x - start.x
  let dy := finish.y - start.y
  [if 0 < dy then
      [start, ⟨start.x, start.y + dy * 0.6⟩, ⟨finish.x, start.y + dy * 0.6⟩, finish]
    else
      [start, ⟨start.x + dx * 0.5, start.y⟩, ⟨start.x + dx * 0.5, finish.y⟩, finish],
   [start, ⟨finish.x, start.y⟩, finish],
   [start, ⟨start.x, finish.y⟩, finish],
   if 0 < dy then
      [start, ⟨start.x, start.y + dy * 0.3⟩, ⟨finish.x, start.y + dy * 0.3⟩, finish]
    else
      [start, ⟨start.x + dx * 0.7, start.y⟩, ⟨start.x + dx * 0.7, finish.y⟩, finish]]

/-- `findPathAroundObstacles`: first collision-free strategy, else the direct
path again. -/
def findPathAroundObstacles (start finish : Point) (obstacles : List ObstacleNode)
    (clearance : ℚ) : List Point :=
  (firstClear obstacles clearance (routingStrategies start finish)).getD
    (getDirectPath start finish)

/-- `calculateAvoidancePath`: drop from the source bottom to the target top,
route directly when nothing blocks, otherwise try the fallback strategies. -/
def calculateAvoidancePath (fromPt toPt : Point) (obstacles : List ObstacleNode)
    (nodeRadius : ℚ) : List Point :=
  let startPoint : Point := ⟨fromPt.x, fromPt.y + nodeRadius⟩
  let endPoint : Point := ⟨toPt.x, toPt.y - nodeRadius⟩
  let clearance : ℚ := 15
  if obstacles.length = 0 ∨
      ¬ pathIntersectsObstacles (getDirectPath startPoint endPoint) obstacles
          clearance then
    getDirectPath startPoint endPoint
  else
    findPathAroundObstacles startPoint endPoint obstacles clearance

/-- `nodesToObstacles`: every node (with its visibility, which is ignored)
outside the exclusion list becomes a radius-30 circle at its position. -/
def nodesToObstacles (nodes : List (SkillTreeNode × ℚ))
    (excludeNodes : List String) : List ObstacleNode :=
  (nodes.filter fun node => !(excludeNodes.contains node.1.exercise.slug)).map
    fun node => ⟨node.1.position.x, node.1.position.y, 30⟩

/-- Geometric boundary crossing, following the spec wording of the collision
test: some parameter `t ∈ [0,1]` puts the segment point exactly on the
inflated circle; degenerate segments use the point-in-disk distance check. -/
def SegmentMeetsInflatedBoundary (p q : Point) (o : ObstacleNode)
    (clearance : ℚ) : Prop :=
  if q.x - p.x = 0 ∧ q.y - p.y = 0 then
    Real.sqrt (((p.x - o.x) ^ 2 + (p.y - o.y) ^ 2 : ℚ)) ≤
      ((o.radius + clearance : ℚ) : ℝ)
  else
    ∃ t : ℝ, 0 ≤ t ∧ t ≤ 1 ∧
      ((p.x : ℝ) + t * ((q.x : ℝ) - (p.x : ℝ)) - (o.x : ℝ)) ^ 2 +
        ((p.y : ℝ) + t * ((q.y : ℝ) - (p.y : ℝ)) - (o.y : ℝ)) ^ 2 =
      ((o.radius : ℝ) + (clearance : ℝ)) ^ 2

/-- Interior-inclusive geometric intersection of a segment with the inflated
disk, as the spec describes the collision test. -/
def SegmentMeetsDisk (p q : Point) (o : ObstacleNode) (clearance : ℚ) : Prop :=
  ∃ t : ℚ, 0 ≤ t ∧ t ≤ 1 ∧
    (p.x + t * (q.x - p.x) - o.x) ^ 2 + (p.y + t * (q.y - p.y) - o.y) ^ 2 ≤
      (o.radius + clearance) ^ 2

set_option maxHeartbeats 1000000 in
/-- The code's segment test detects exactly boundary crossings within the
parameter range, not containment in the disk. -/
theorem lineIntersectsCircle_iff_boundary (p q : Point) (o : ObstacleNode)
    (cl : ℚ) :
    lineIntersectsCircle p q o cl ↔ SegmentMeetsInflatedBoundary p q o cl := by
  simp only [lineIntersectsCircle, SegmentMeetsInflatedBoundary]
  by_cases hdeg : q.x - p.x = 0 ∧ q.y - p.y = 0
  · rw [if_pos hdeg, if_pos hdeg]
  · rw [if_neg hdeg, if_neg hdeg]
    set Aq : ℚ := (q.x - p.x) * (q.x - p.x) + (q.y - p.y) * (q.y - p.y) with hAq
    set Bq : ℚ := 2 * ((p.x - o.x) * (q.x - p.x) + (p.y - o.y) * (q.y - p.y))
      with hBq
    set Cq : ℚ := (p.x - o.x) * (p.x - o.x) + (p.y - o.y) * (p.y - o.y) -
      (o.radius + cl) * (o.radius + cl) with hCq
    have hApos : (0 : ℚ) < Aq := by
      rcases not_and_or.mp hdeg with hdx | hdy
      · have := mul_self_pos.mpr hdx
        rw [hAq]
        nlinarith [mul_self_nonneg (q.y - p.y)]
      · have := mul_self_pos.mpr hdy
        rw [hAq]
        nlinarith [mul_self_nonneg (q.x - p.x)]
    have hAne : ((Aq : ℚ) : ℝ) ≠ 0 := by
      have : (0 : ℝ) < ((Aq : ℚ) : ℝ) := by exact_mod_cast hApos
      linarith
    have hexp : ∀ t : ℝ,
        ((p.x : ℝ) + t * ((q.x : ℝ) - (p.x : ℝ)) - (o.x : ℝ)) ^ 2 +
          ((p.y : ℝ) + t * ((q.y : ℝ) - (p.y : ℝ)) - (o.y : ℝ)) ^ 2 -
          ((o.radius : ℝ) + (cl : ℝ)) ^ 2 =
        ((Aq : ℚ) : ℝ) * (t * t) + ((Bq : ℚ) : ℝ) * t + ((Cq : ℚ) : ℝ) := by
      intro t
      rw [hAq, hBq, hCq]
      push_cast
      ring
    have hmeet : ∀ t : ℝ,
        (((p.x : ℝ) + t * ((q.x : ℝ) - (p.x : ℝ)) - (o.x : ℝ)) ^ 2 +
          ((p.y : ℝ) + t * ((q.y : ℝ) - (p.y : ℝ)) - (o.y : ℝ)) ^ 2 =
          ((o.radius : ℝ) + (cl : ℝ)) ^ 2) ↔
        ((Aq : ℚ) : ℝ) * (t * t) + ((Bq : ℚ) : ℝ) * t + ((Cq : ℚ) : ℝ) = 0 := by
      intro t
      rw [← hexp t]
      constructor
      · intro h; rw [h]; ring
      · intro h; linarith [h]
    have hdiscrim : discrim ((Aq : ℚ) : ℝ) ((Bq : ℚ) : ℝ) ((Cq : ℚ) : ℝ) =
        ((Bq * Bq - 4 * Aq * Cq : ℚ) : ℝ) := by
      unfold discrim
      push_cast
      ring
    by_cases hdisc : Bq * Bq - 4 * Aq * Cq < 0
    · rw [if_pos hdisc]
      constructor
      · exact False.elim
      · rintro ⟨t, -, -, heq⟩
        have hne : ∀ s : ℝ,
            discrim ((Aq : ℚ) : ℝ) ((Bq : ℚ) : ℝ) ((Cq : ℚ) : ℝ) ≠ s ^ 2 := by
          intro s
          rw [hdiscrim]
          have h1 : ((Bq * Bq - 4 * Aq * Cq : ℚ) : ℝ) < 0 := by exact_mod_cast hdisc
          nlinarith [sq_nonneg s]
        exact quadratic_ne_zero_of_discrim_ne_sq hne t ((hmeet t).mp heq)
    · rw [if_neg hdisc]
      push_neg at hdisc
      have hDnn : (0 : ℝ) ≤ ((Bq * Bq - 4 * Aq * Cq : ℚ) : ℝ) := by
        exact_mod_cast hdisc
      have hsq : discrim ((Aq : ℚ) : ℝ) ((Bq : ℚ) : ℝ) ((Cq : ℚ) : ℝ) =
          Real.sqrt ((Bq * Bq - 4 * Aq * Cq : ℚ)) *
            Real.sqrt ((Bq * Bq - 4 * Aq * Cq : ℚ)) := by
        rw [hdiscrim, Real.mul_self_sqrt hDnn]
      constructor
      · rintro (⟨h0, h1⟩ | ⟨h0, h1⟩)
        · refine ⟨_, h0, h1, ?_⟩
          rw [hmeet]
          exact (quadratic_eq_zero_iff hAne hsq _).mpr (Or.inr rfl)
        · refine ⟨_, h0, h1, ?_⟩
          rw [hmeet]
          exact (quadratic_eq_zero_iff hAne hsq _).mpr (Or.inl rfl)
      · rintro ⟨t, h0, h1, heq⟩
        rcases (quadratic_eq_zero_iff hAne hsq t).mp ((hmeet t).mp heq) with
          rfl | rfl
        · exact Or.inr ⟨h0, h1⟩
        · exact Or.inl ⟨h0, h1⟩

/-- C3 (amended): the collision test flags a polyline exactly when some
segment crosses the boundary of some inflated obstacle circle at a parameter
in `[0,1]` (degenerate segments: point-in-disk); a segment lying strictly
inside the inflated circle is not flagged. -/
theorem collision_test_amended (path : List Point) (obstacles : List ObstacleNode)
    (clearance : ℚ) :
    pathIntersectsObstacles path obstacles clearance ↔
      ∃ seg ∈ path.zip path.tail, ∃ o ∈ obstacles,
        SegmentMeetsInflatedBoundary seg.1 seg.2 o clearance := by
  unfold pathIntersectsObstacles
  exact exists_congr fun seg => and_congr_right fun hseg =>
    exists_congr fun o => and_congr_right fun ho =>
      lineIntersectsCircle_iff_boundary seg.1 seg.2 o clearance

/-- C3 counterexample: the unit segment from the center of a radius-30
obstacle (clearance 15) lies strictly inside the inflated disk — a geometric
intersection — yet the collision test reports the path clear, because both
roots of the boundary quadratic fall outside `[0,1]`. -/
theorem collision_test_counterexample :
    SegmentMeetsDisk ⟨0, 0⟩ ⟨1, 0⟩ ⟨0, 0, 30⟩ 15 ∧
    ¬ pathIntersectsObstacles [⟨0, 0⟩, ⟨1, 0⟩] [⟨0, 0, 30⟩] 15 := by
  constructor
  · refine ⟨0, le_refl 0, by norm_num, ?_⟩
    norm_num [SegmentMeetsDisk]
  · intro h
    obtain ⟨seg, hseg, o, ho, hline⟩ := h
    simp only [List.tail_cons, List.zip_cons_cons, List.zip_nil_right,
      List.mem_singleton] at hseg ho
    subst hseg
    subst ho
    rw [lineIntersectsCircle_iff_alg] at hline
    simp only [lineIntersectsCircleAlg] at hline
    norm_num at hline

theorem routingStrategies_zero (start finish : Point) :
    routingStrategies start finish =
      [getDirectPath start finish,
       [start, ⟨finish.x, start.y⟩, finish],
       [start, ⟨start.x, finish.y⟩, finish],
       if 0 < finish.y - start.y then
         [start, ⟨start.x, start.y + (finish.y - start.y) * 0.3⟩,
          ⟨finish.x, start.y + (finish.y - start.y) * 0.3⟩, finish]
       else
         [start, ⟨start.x + (finish.x - start.x) * 0.7, start.y⟩,
          ⟨start.x + (finish.x - start.x) * 0.7, finish.y⟩, finish]] := by
  simp only [routingStrategies, getDirectPath]

/-- C4: when the direct L-path is blocked, the router returns the first
collision-free polyline among, in order, the horizontal shortcut, the
vertical shortcut and the 0.3/0.7 arc (the retried original L-route adds
nothing, being equal to the blocked direct path); when all are blocked it
returns the direct path anyway. -/
theorem fallback_order (fromPt toPt : Point) (obstacles : List ObstacleNode)
    (r : ℚ)
    (hblocked : pathIntersectsObstacles
      (getDirectPath ⟨fromPt.x, fromPt.y + r⟩ ⟨toPt.x, toPt.y - r⟩)
      obstacles 15) :
    calculateAvoidancePath fromPt toPt obstacles r =
      (let start : Point := ⟨fromPt.x, fromPt.y + r⟩
       let finish : Point := ⟨toPt.x, toPt.y - r⟩
       let horiz : List Point := [start, ⟨finish.x, start.y⟩, finish]
       let vert : List Point := [start, ⟨start.x, finish.y⟩, finish]
       let arc : List Point :=
         if 0 < finish.y - start.y then
           [start, ⟨start.x, start.y + (finish.y - start.y) * 0.3⟩,
            ⟨finish.x, start.y + (finish.y - start.y) * 0.3⟩, finish]
         else
           [start, ⟨start.x + (finish.x - start.x) * 0.7, start.y⟩,
            ⟨start.x + (finish.x - start.x) * 0.7, finish.y⟩, finish]
       if ¬ pathIntersectsObstacles horiz obstacles 15 then horiz
       else if ¬ pathIntersectsObstacles vert obstacles 15 then vert
       else if ¬ pathIntersectsObstacles arc obstacles 15 then arc
       else getDirectPath start finish) := by
  have hne0 : ¬ obstacles.length = 0 := by
    obtain ⟨seg, -, o, ho, -⟩ := hblocked
    intro hlen
    rw [List.length_eq_zero] at hlen
    subst hlen
    exact absurd ho (List.not_mem_nil o)
  simp only [calculateAvoidancePath]
  rw [if_neg (not_or.mpr ⟨hne0, not_not_intro hblocked⟩)]
  unfold findPathAroundObstacles
  rw [routingStrategies_zero]
  simp only [firstClear]
  rw [if_pos hblocked]
  by_cases h1 : pathIntersectsObstacles
      [(⟨fromPt.x, fromPt.y + r⟩ : Point),
       ⟨(⟨toPt.x, toPt.y - r⟩ : Point).x, (⟨fromPt.x, fromPt.y + r⟩ : Point).y⟩,
       ⟨toPt.x, toPt.y - r⟩] obstacles 15
  · rw [if_pos h1]
    by_cases h2 : pathIntersectsObstacles
        [(⟨fromPt.x, fromPt.y + r⟩ : Point),
         ⟨(⟨fromPt.x, fromPt.y + r⟩ : Point).x, (⟨toPt.x, toPt.y - r⟩ : Point).y⟩,
         ⟨toPt.x, toPt.y - r⟩] obstacles 15
    · rw [if_pos h2]
      by_cases h3 : pathIntersectsObstacles
          (if 0 < (⟨toPt.x, toPt.y - r⟩ : Point).y - (⟨fromPt.x, fromPt.y + r⟩ : Point).y then
            [(⟨fromPt.x, fromPt.y + r⟩ : Point),
             ⟨(⟨fromPt.x, fromPt.y + r⟩ : Point).x,
              (⟨fromPt.x, fromPt.y + r⟩ : Point).y +
                ((⟨toPt.x, toPt.y - r⟩ : Point).y - (⟨fromPt.x, fromPt.y + r⟩ : Point).y) * 0.3⟩,
             ⟨(⟨toPt.x, toPt.y - r⟩ : Point).x,
              (⟨fromPt.x, fromPt.y + r⟩ : Point).y +
                ((⟨toPt.x, toPt.y - r⟩ : Point).y - (⟨fromPt.x, fromPt.y + r⟩ : Point).y) * 0.3⟩,
             ⟨toPt.x, toPt.y - r⟩]
          else
            [(⟨fromPt.x, fromPt.y + r⟩ : Point),
             ⟨(⟨fromPt.x, fromPt.y + r⟩ : Point).x +
                ((⟨toPt.x, toPt.y - r⟩ : Point).x - (⟨fromPt.x, fromPt.y + r⟩ : Point).x) * 0.7,
              (⟨fromPt.x, fromPt.y + r⟩ : Point).y⟩,
             ⟨(⟨fromPt.x, fromPt.y + r⟩ : Point).x +
                ((⟨toPt.x, toPt.y - r⟩ : Point).x - (⟨fromPt.x, fromPt.y + r⟩ : Point).x) * 0.7,
              (⟨toPt.x, toPt.y - r⟩ : Point).y⟩,
             ⟨toPt.x, toPt.y - r⟩]) obstacles 15
      · rw [if_pos h3]
        simp only [Option.getD_none]
        rw [if_neg (not_not_intro h1), if_neg (not_not_intro h2),
          if_neg (not_not_intro h3)]
      · rw [if_neg h3]
        simp only [Option.getD_some]
        rw [if_neg (not_not_intro h1), if_neg (not_not_intro h2), if_pos h3]
    · rw [if_neg h2]
      simp only [Option.getD_some]
      rw [if_neg (not_not_intro h1), if_pos h2]
  · rw [if_neg h1]
    simp only [Option.getD_some]
    rw [if_pos h1]

/-- A source at the origin, a target straight below, an obstacle midway: the
direct path and all three fallbacks are blocked, so the router returns the
direct path anyway. -/
theorem fallback_order_witness :
    pathIntersectsObstacles
      (getDirectPath ⟨(0 : ℚ), 0 + 0⟩ ⟨(0 : ℚ), 100 - 0⟩) [⟨0, 50, 30⟩] 15 ∧
    calculateAvoidancePath ⟨0, 0⟩ ⟨0, 100⟩ [⟨0, 50, 30⟩] 0 =
      getDirectPath ⟨(0 : ℚ), 0 + 0⟩ ⟨(0 : ℚ), 100 - 0⟩ := by
  have hvertseg : ∀ y1 y2 : ℚ, y1 ≤ 5 → 5 ≤ y2 → y1 < y2 →
      lineIntersectsCircle ⟨0, y1⟩ ⟨0, y2⟩ ⟨0, 50, 30⟩ 15 := by
    intro y1 y2 h1 h2 h12
    rw [lineIntersectsCircle_iff_alg]
    simp only [lineIntersectsCircleAlg]
    have hne : ¬ ((0 : ℚ) - 0 = 0 ∧ y2 - y1 = 0) := by
      rintro ⟨-, h⟩
      linarith
    rw [if_neg hne]
    rw [if_neg (by nlinarith [sq_nonneg (y2 - y1)])]
    refine Or.inl ⟨by nlinarith, by nlinarith, ?_⟩
    by_cases hy2 : 50 ≤ y2
    · exact Or.inl (by nlinarith)
    · push_neg at hy2
      exact Or.inr (by nlinarith)
  have hdir : pathIntersectsObstacles
      (getDirectPath ⟨(0 : ℚ), 0 + 0⟩ ⟨(0 : ℚ), 100 - 0⟩) [⟨0, 50, 30⟩] 15 := by
    have hpath : getDirectPath ⟨(0 : ℚ), 0 + 0⟩ ⟨(0 : ℚ), 100 - 0⟩ =
        [⟨0, 0 + 0⟩, ⟨0, (0 + 0) + ((100 - 0) - (0 + 0)) * 0.6⟩,
         ⟨0, (0 + 0) + ((100 - 0) - (0 + 0)) * 0.6⟩, ⟨0, 100 - 0⟩] := by
      simp only [getDirectPath]
      rw [if_pos (by norm_num)]
    rw [hpath]
    refine ⟨(⟨0, 0 + 0⟩, ⟨0, (0 + 0) + ((100 - 0) - (0 + 0)) * 0.6⟩), by simp,
      ⟨0, 50, 30⟩, by simp, ?_⟩
    exact hvertseg (0 + 0) ((0 + 0) + ((100 - 0) - (0 + 0)) * 0.6)
      (by norm_num) (by norm_num) (by norm_num)
  refine ⟨hdir, ?_⟩
  rw [fallback_order ⟨0, 0⟩ ⟨0, 100⟩ [⟨0, 50, 30⟩] 0 hdir]
  have hh : pathIntersectsObstacles
      [(⟨(0 : ℚ), 0 + 0⟩ : Point), ⟨(0 : ℚ), 0 + 0⟩, ⟨(0 : ℚ), 100 - 0⟩]
      [⟨0, 50, 30⟩] 15 := by
    refine ⟨((⟨(0 : ℚ), 0 + 0⟩ : Point), (⟨(0 : ℚ), 100 - 0⟩ : Point)), by simp,
      ⟨0, 50, 30⟩, by simp, ?_⟩
    exact hvertseg (0 + 0) (100 - 0) (by norm_num) (by norm_num) (by norm_num)
  have hv : pathIntersectsObstacles
      [(⟨(0 : ℚ), 0 + 0⟩ : Point), ⟨(0 : ℚ), 100 - 0⟩, ⟨(0 : ℚ), 100 - 0⟩]
      [⟨0, 50, 30⟩] 15 := by
    refine ⟨((⟨(0 : ℚ), 0 + 0⟩ : Point), (⟨(0 : ℚ), 100 - 0⟩ : Point)), by simp,
      ⟨0, 50, 30⟩, by simp, ?_⟩
    exact hvertseg (0 + 0) (100 - 0) (by norm_num) (by norm_num) (by norm_num)
  have ha : pathIntersectsObstacles
      (if 0 < (100 - 0 : ℚ) - (0 + 0) then
        [(⟨(0 : ℚ), 0 + 0⟩ : Point),
         ⟨(0 : ℚ), (0 + 0) + ((100 - 0) - (0 + 0)) * 0.3⟩,
         ⟨(0 : ℚ), (0 + 0) + ((100 - 0) - (0 + 0)) * 0.3⟩, ⟨(0 : ℚ), 100 - 0⟩]
      else
        [(⟨(0 : ℚ), 0 + 0⟩ : Point),
         ⟨(0 : ℚ) + ((0 : ℚ) - 0) * 0.7, 0 + 0⟩,
         ⟨(0 : ℚ) + ((0 : ℚ) - 0) * 0.7, 100 - 0⟩, ⟨(0 : ℚ), 100 - 0⟩])
      [⟨0, 50, 30⟩] 15 := by
    rw [if_pos (by norm_num)]
    refine ⟨((⟨(0 : ℚ), 0 + 0⟩ : Point),
      (⟨(0 : ℚ), (0 + 0) + ((100 - 0) - (0 + 0)) * 0.3⟩ : Point)), by simp,
      ⟨0, 50, 30⟩, by simp, ?_⟩
    exact hvertseg (0 + 0) ((0 + 0) + ((100 - 0) - (0 + 0)) * 0.3)
      (by norm_num) (by norm_num) (by norm_num)
  simp only [if_neg (not_not_intro hh), if_neg (not_not_intro hv),
    if_neg (not_not_intro ha)]

theorem nodesToObstacles_eq_of_same_nodes (nodes nodes2 : List (SkillTreeNode × ℚ))
    (exclude : List String) (h : nodes.map Prod.fst = nodes2.map Prod.fst) :
    nodesToObstacles nodes exclude = nodesToObstacles nodes2 exclude := by
  have key : ∀ ns : List (SkillTreeNode × ℚ),
      nodesToObstacles ns exclude =
        ((ns.map Prod.fst).filter fun n => !(exclude.contains n.exercise.slug)).map
          fun n => ⟨n.position.x, n.position.y, 30⟩ := by
    intro ns
    induction ns with
    | nil => rfl
    | cons nv rest ih =>
      simp only [nodesToObstacles] at ih ⊢
      rw [List.map_cons]
      cases hk : (!(exclude.contains nv.1.exercise.slug)) with
      | true =>
        simp only [List.filter_cons, hk, eq_self_iff_true, if_true, List.map_cons]
        rw [ih]
      | false =>
        simp only [List.filter_cons, hk, Bool.false_eq_true, if_false]
        exact ih
  rw [key nodes, key nodes2, h]

/-- C8: node sets that agree on everything except each node's visibility value
yield the identical obstacle set, hence identical routed polylines for every
edge — filter state does not flow into routing. -/
theorem visibility_independent (nodes nodes2 : List (SkillTreeNode × ℚ))
    (exclude : List String)
    (h : nodes.map Prod.fst = nodes2.map Prod.fst)
    (fromPt toPt : Point) (r : ℚ) :
    nodesToObstacles nodes exclude = nodesToObstacles nodes2 exclude ∧
    calculateAvoidancePath fromPt toPt (nodesToObstacles nodes exclude) r =
      calculateAvoidancePath fromPt toPt (nodesToObstacles nodes2 exclude) r := by
  have heq := nodesToObstacles_eq_of_same_nodes nodes nodes2 exclude h
  exact ⟨heq, by rw [heq]⟩

/-- Routing around the mid node is the same whether it is fully visible or
dimmed to a quarter. -/
theorem visibility_independent_witness :
    calculateAvoidancePath ⟨0, 0⟩ ⟨0, 100⟩
        (nodesToObstacles [(midNode, 1)] []) 30 =
      calculateAvoidancePath ⟨0, 0⟩ ⟨0, 100⟩
        (nodesToObstacles [(midNode, 1/4)] []) 30 :=
  (visibility_independent [(midNode, 1)] [(midNode, 1/4)] [] rfl
    ⟨0, 0⟩ ⟨0, 100⟩ 30).2

/-! ## Totality of the four core passes -/

/-- Exercise `"self"`, depending on itself. -/
def selfEx : Exercise :=
  ⟨"self", "locked", "Self", "", none, some ["self"], none, none, none⟩

/-- The built node for `selfEx`. -/
def selfNode : SkillTreeNode := ⟨selfEx, fallbackPath, ⟨0, 0⟩, ["self"], ["self"]⟩

/-- The layout state entering the position pass on the self-loop. -/
def selfSt : LayoutState := ⟨[selfNode], []⟩

theorem self_build_nodes :
    computeDependents ([selfEx].map (initialNode [])) = [selfNode] := by
  simp +decide [computeDependents, addDependent, initialNode, mapGet,
    fallbackPath, selfEx, selfNode]

theorem self_diverges :
    ∀ fuel, calculatePosition fuel selfSt 0 = none := by
  intro fuel
  induction fuel with
  | zero => rfl
  | succ n ih =>
    have hidx : lastIdx? selfSt.nodes "self" = some 0 := by decide
    have hpd : positionDeps n selfSt ("self" :: []) = none :=
      posDeps_go_none hidx (by decide) ih
    have hn0 : selfSt.nodes[0]? = some selfNode := by simp [selfSt]
    exact calcPos_rec_none hn0 (by decide) (by decide) hpd

theorem self_build_none :
    ∀ fuel, createSkillTreeData fuel [selfEx] [] = none := by
  intro fuel
  unfold createSkillTreeData resolveLayout
  rw [self_build_nodes]
  have h0 : List.range ([selfNode] : List SkillTreeNode).length = [0] := rfl
  rw [h0]
  show (calcAll fuel selfSt [0]).map LayoutState.nodes = none
  simp [calcAll, self_diverges fuel]

/-- An unknown dragged slug makes the drag propagator return the empty record. -/
theorem calculateDraggedPositions_unknown (fuel : Nat) (slug : String) (P : Point)
    (nodes : List SkillTreeNode)
    (h : nodes.find? (fun n => n.exercise.slug = slug) = none) :
    calculateDraggedPositions fuel slug P nodes = some [] := by
  simp only [calculateDraggedPositions, h]

/-- Success of the position recursion on acyclic graphs: enough fuel (any
bound above the target's rank) makes it return. -/
theorem calcPos_succeeds (rank : String → Nat) :
    ∀ fuel : Nat,
    (∀ (st : LayoutState) (i : Nat) (node : SkillTreeNode),
      DepRank st.nodes rank → st.nodes[i]? = some node →
      rank node.exercise.slug < fuel →
      (calculatePosition fuel st i).isSome) ∧
    (∀ (st : LayoutState) (deps : List String) (B : Nat),
      DepRank st.nodes rank →
      (∀ d ∈ deps, (lastIdx? st.nodes d).isSome → rank d < B) →
      B ≤ fuel →
      (positionDeps fuel st deps).isSome) := by
  intro fuel
  induction fuel with
  | zero =>
    constructor
    · intro st i node _ _ hrank
      exact absurd hrank (by omega)
    · intro st deps B hdr hb hBle
      revert st hdr hb
      induction deps with
      | nil =>
        intro st _ _
        rw [positionDeps_nil]
        rfl
      | cons d rest ihd =>
        intro st hdr hb
        cases hidx : lastIdx? st.nodes d with
        | none =>
          rw [posDeps_unres hidx]
          exact ihd st hdr fun e he hs => hb e (List.mem_cons_of_mem d he) hs
        | some j =>
          have := hb d (List.mem_cons_self d rest) (by rw [hidx]; rfl)
          exact absurd this (by omega)
  | succ n ihn =>
    have hfirst : ∀ (st : LayoutState) (i : Nat) (node : SkillTreeNode),
        DepRank st.nodes rank → st.nodes[i]? = some node →
        rank node.exercise.slug < n + 1 →
        (calculatePosition (n + 1) st i).isSome := by
      intro st i node hdr hnode hrank
      by_cases hpos : node.exercise.slug ∈ st.positioned
      · rw [calcPos_done hnode hpos]; rfl
      · by_cases hdeps : node.dependencies = []
        · rw [calcPos_root hnode hpos hdeps]; rfl
        · have hpd := ihn.2 st node.dependencies (rank node.exercise.slug) hdr
            (fun d hd hsome => hdr i node hnode d hd hsome) (by omega)
          cases hpdc : positionDeps n st node.dependencies with
          | none => rw [hpdc] at hpd; exact absurd hpd (by simp)
          | some st1 => rw [calcPos_rec_some hnode hpos hdeps hpdc]; rfl
    refine ⟨hfirst, ?_⟩
    intro st deps B hdr hb hBle
    revert st hdr hb
    induction deps with
    | nil =>
      intro st _ _
      rw [positionDeps_nil]
      rfl
    | cons d rest ihd =>
      intro st hdr hb
      cases hidx : lastIdx? st.nodes d with
      | none =>
        rw [posDeps_unres hidx]
        exact ihd st hdr fun e he hs => hb e (List.mem_cons_of_mem d he) hs
      | some j =>
        by_cases hpos : d ∈ st.positioned
        · rw [posDeps_skip hidx hpos]
          exact ihd st hdr fun e he hs => hb e (List.mem_cons_of_mem d he) hs
        · obtain ⟨nd, hnd, hnds⟩ := lastIdx?_some hidx
          have hrd : rank d < B :=
            hb d (List.mem_cons_self d rest) (by rw [hidx]; rfl)
          have hcp := hfirst st j nd hdr hnd (by rw [hnds]; omega)
          cases hc : calculatePosition (n + 1) st j with
          | none => rw [hc] at hcp; exact absurd hcp (by simp)
          | some st1 =>
            rw [posDeps_go_some hidx hpos hc]
            obtain ⟨hok, -⟩ := (calcPos_ok (n + 1)).1 st j st1 hc
            refine ihd st1 (depRank_congr hok.1 hdr) ?_
            intro e he hs
            refine hb e (List.mem_cons_of_mem d he) ?_
            rwa [lastIdx?_congr (slugs_eq_of_shape_eq hok.1)] at hs

theorem le_foldr_max : ∀ (l : List Nat) (x : Nat), x ∈ l →
    x ≤ l.foldr Nat.max 0 := by
  intro l
  induction l with
  | nil => intro x hx; exact absurd hx (List.not_mem_nil x)
  | cons a rest ih =>
    intro x hx
    rcases List.mem_cons.mp hx with rfl | hx2
    · exact Nat.le_max_left x _
    · exact le_trans (ih x hx2) (Nat.le_max_right a _)

theorem calcAll_succeeds (rank : String → Nat) (fuel : Nat) (hfuel : 1 ≤ fuel) :
    ∀ (l : List Nat) (st : LayoutState),
      DepRank st.nodes rank →
      (∀ n ∈ st.nodes, rank n.exercise.slug < fuel) →
      (calcAll fuel st l).isSome := by
  intro l
  induction l with
  | nil => intro st _ _; rfl
  | cons i rest ih =>
    intro st hdr hrk
    cases hnode : st.nodes[i]? with
    | none =>
      obtain ⟨m, rfl⟩ : ∃ m, fuel = m + 1 := ⟨fuel - 1, by omega⟩
      have hcp : calculatePosition (m + 1) st i = some st := calcPos_oob hnode
      simp only [calcAll, hcp]
      exact ih st hdr hrk
    | some node =>
      have hcp := (calcPos_succeeds rank fuel).1 st i node hdr hnode
        (hrk node (List.mem_iff_getElem?.mpr ⟨i, hnode⟩))
      cases hc : calculatePosition fuel st i with
      | none => rw [hc] at hcp; exact absurd hcp (by simp)
      | some st1 =>
        simp only [calcAll, hc]
        obtain ⟨hok, -⟩ := (calcPos_ok fuel).1 st i st1 hc
        refine ih st1 (depRank_congr hok.1 hdr) ?_
        intro m hm
        have hms : m.exercise.slug ∈ slugs st.nodes := by
          rw [← slugs_eq_of_shape_eq hok.1]
          exact List.mem_map_of_mem _ hm
        obtain ⟨n2, hn2, hn2s⟩ := List.mem_map.mp hms
        exact hn2s ▸ hrk n2 hn2

/-- The graph build terminates on every input whose resolvable dependency
edges admit a rank function. -/
theorem build_terminates_of_acyclic (exercises : List Exercise)
    (paths : List Path) (rank : String → Nat)
    (hac : ExercisesAcyclic exercises rank) :
    buildTerminates exercises paths := by
  have hdr : DepRank (computeDependents (exercises.map (initialNode paths)))
      rank := depRank_of_acyclic exercises paths rank hac
  have hrk : ∀ n ∈ computeDependents (exercises.map (initialNode paths)),
      rank n.exercise.slug <
        (((computeDependents (exercises.map (initialNode paths))).map
          fun n => rank n.exercise.slug).foldr Nat.max 0) + 1 := by
    intro n hn
    have := le_foldr_max _ (rank n.exercise.slug)
      (List.mem_map_of_mem (fun n => rank n.exercise.slug) hn)
    omega
  have hsome := calcAll_succeeds rank _ (by omega)
    (List.range (computeDependents (exercises.map (initialNode paths))).length)
    ⟨computeDependents (exercises.map (initialNode paths)), []⟩ hdr hrk
  cases hca : calcAll
      ((((computeDependents (exercises.map (initialNode paths))).map
        fun n => rank n.exercise.slug).foldr Nat.max 0) + 1)
      ⟨computeDependents (exercises.map (initialNode paths)), []⟩
      (List.range (computeDependents (exercises.map (initialNode paths))).length)
      with
  | none => rw [hca] at hsome; exact absurd hsome (by simp)
  | some stF =>
    refine ⟨(((computeDependents (exercises.map (initialNode paths))).map
      fun n => rank n.exercise.slug).foldr Nat.max 0) + 1, stF.nodes, ?_⟩
    unfold createSkillTreeData resolveLayout
    rw [hca]
    rfl

/-- The router always returns a polyline with at least the two endpoints. -/
theorem calculateAvoidancePath_length (fromPt toPt : Point)
    (obstacles : List ObstacleNode) (r : ℚ) :
    2 ≤ (calculateAvoidancePath fromPt toPt obstacles r).length := by
  have hdp : ∀ s f : Point, 2 ≤ (getDirectPath s f).length := by
    intro s f
    simp only [getDirectPath]
    by_cases h : 0 < f.y - s.y
    · rw [if_pos h]; simp
    · rw [if_neg h]; simp
  simp only [calculateAvoidancePath]
  by_cases hg : obstacles.length = 0 ∨
      ¬ pathIntersectsObstacles
        (getDirectPath ⟨fromPt.x, fromPt.y + r⟩ ⟨toPt.x, toPt.y - r⟩)
        obstacles 15
  · rw [if_pos hg]
    exact hdp _ _
  · rw [if_neg hg]
    unfold findPathAroundObstacles
    rw [routingStrategies_zero]
    simp only [firstClear]
    split_ifs <;>
      simp only [Option.getD_some, Option.getD_none, List.length_cons,
        List.length_nil] <;>
      first
        | exact hdp _ _
        | omega

/-- C9 counterexample: on the input consisting of the single self-dependent
exercise `"self"`, the graph build never returns, at any fuel — so the build
does not produce a best-effort result for every input shape. -/
theorem no_throw_counterexample :
    ¬ buildTerminates [selfEx] [] := by
  rintro ⟨fuel, out, h⟩
  rw [self_build_none fuel] at h
  cases h

/-- A rank witnessing acyclicity of the three-node example chain. -/
def chainRank (s : String) : Nat :=
  if s = "leaf" then 2 else if s = "mid" then 1 else 0

/-- C9 (amended): the build returns a result for every input whose resolvable
dependencies are acyclic (but diverges on self-referential or cyclic inputs);
drag propagation returns on every input and yields the empty record for
unknown dragged slugs; routing always returns a polyline with at least two
points. -/
theorem no_throw_amended :
    (∀ (exercises : List Exercise) (paths : List Path) (rank : String → Nat),
      ExercisesAcyclic exercises rank → buildTerminates exercises paths) ∧
    (∀ (nodes : List SkillTreeNode) (slug : String) (P : Point),
      (calculateDraggedPositions ((slugs nodes).dedup.length + 2)
        slug P nodes).isSome) ∧
    (∀ (fuel : Nat) (slug : String) (P : Point) (nodes : List SkillTreeNode),
      nodes.find? (fun n => n.exercise.slug = slug) = none →
      calculateDraggedPositions fuel slug P nodes = some []) ∧
    (∀ (fromPt toPt : Point) (obstacles : List ObstacleNode) (r : ℚ),
      2 ≤ (calculateAvoidancePath fromPt toPt obstacles r).length) ∧
    (∀ fuel, createSkillTreeData fuel [selfEx] [] = none) :=
  ⟨fun exercises paths rank hac =>
      build_terminates_of_acyclic exercises paths rank hac,
   fun nodes slug P => calculateDraggedPositions_isSome slug P nodes,
   fun fuel slug P nodes h =>
      calculateDraggedPositions_unknown fuel slug P nodes h,
   fun fromPt toPt obstacles r =>
      calculateAvoidancePath_length fromPt toPt obstacles r,
   self_build_none⟩

/-- The acyclic three-exercise chain builds, and dragging an unknown slug is
a no-op. -/
theorem no_throw_amended_witness :
    buildTerminates [exRoot, exMid, exLeaf] [] ∧
    calculateDraggedPositions 5 "nope" ⟨0, 0⟩ [rootNode] = some [] :=
  ⟨no_throw_amended.1 [exRoot, exMid, exLeaf] [] chainRank
      (by unfold ExercisesAcyclic; decide),
   no_throw_amended.2.2.1 5 "nope" ⟨0, 0⟩ [rootNode] rfl⟩

end SkillsTree
